import Mathlib

/-!
Verification of the logSumExp SIMD reduction package.

The C++ source (inst/include/logSum.hpp, src/logSum.cpp) is a family of
function templates over a floating-point element type T.  We embed it
shallowly: a SIMD vector of width w is a `List α` of length w, a bank of N
accumulators is a `List (List α)`, a buffer is a `List α`, and every memory
read goes through `l[i]?` so that an out-of-range access surfaces as `none`.
The element operations (add, sub, exp, log, log1p, fmax/fmin and the hardware
vector max/min) are collected in an `Ops` dictionary, mirroring the C++
template parameter T with its overloaded operations.  Two instantiations are
used: exact real arithmetic (`realOps`, the exact-arithmetic semantics of
`double`) and `fvalOps` over `FVal`, reals extended with the IEEE special
values plus-infinity, minus-infinity and NaN.
-/

namespace LSE

/-- Element operations of the scalar type T and of its SIMD lanes.
`fmax`/`fmin` are the C library fmax/fmin used on scalar code paths;
`vmax`/`vmin` are the hardware per-lane max/min (SSE/AVX maxpd semantics)
used by the vectorised code paths. -/
structure Ops (α : Type) where
  add : α → α → α
  sub : α → α → α
  exp : α → α
  log : α → α
  log1p : α → α
  fmax : α → α → α
  fmin : α → α → α
  vmax : α → α → α
  vmin : α → α → α
  zero : α

/-- Exact real-arithmetic semantics of double: no rounding, no special
values.  fmax, fmin and the hardware max/min all coincide with max/min. -/
noncomputable def realOps : Ops ℝ where
  add := fun a b => a + b
  sub := fun a b => a - b
  exp := Real.exp
  log := Real.log
  log1p := fun x => Real.log (1 + x)
  fmax := max
  fmin := min
  vmax := max
  vmin := min
  zero := 0

/-- A double extended with the IEEE special values: finite reals,
plus-infinity, minus-infinity and NaN. -/
inductive FVal where
  | fin : ℝ → FVal
  | pinf : FVal
  | ninf : FVal
  | nan : FVal

namespace FVal

/-- IEEE addition on extended values: NaN is absorbing, and the two
infinities of opposite sign annihilate to NaN. -/
def add : FVal → FVal → FVal
  | nan, _ => nan
  | _, nan => nan
  | pinf, ninf => nan
  | ninf, pinf => nan
  | pinf, _ => pinf
  | _, pinf => pinf
  | ninf, _ => ninf
  | _, ninf => ninf
  | fin a, fin b => fin (a + b)

/-- IEEE subtraction on extended values: NaN is absorbing, and an infinity
minus itself is NaN. -/
def sub : FVal → FVal → FVal
  | nan, _ => nan
  | _, nan => nan
  | pinf, pinf => nan
  | ninf, ninf => nan
  | pinf, _ => pinf
  | ninf, _ => ninf
  | _, pinf => ninf
  | _, ninf => pinf
  | fin a, fin b => fin (a - b)

/-- IEEE exponential: exp(-inf) = 0, exp(+inf) = +inf, exp(NaN) = NaN. -/
noncomputable def exp : FVal → FVal
  | fin a => fin (Real.exp a)
  | pinf => pinf
  | ninf => fin 0
  | nan => nan

/-- IEEE natural logarithm: log of a negative value is NaN, log 0 = -inf,
log(+inf) = +inf, log(-inf) = NaN, log(NaN) = NaN. -/
noncomputable def log : FVal → FVal
  | fin a => if 0 < a then fin (Real.log a) else if a = 0 then ninf else nan
  | pinf => pinf
  | ninf => nan
  | nan => nan

/-- IEEE log1p: log1p x = log (1 + x), with log1p (-1) = -inf, log1p of
anything below -1 NaN, log1p(+inf) = +inf, log1p(-inf) = NaN. -/
noncomputable def log1p : FVal → FVal
  | fin a => if -1 < a then fin (Real.log (1 + a)) else if a = -1 then ninf else nan
  | pinf => pinf
  | ninf => nan
  | nan => nan

/-- C library fmax: if exactly one operand is NaN the other one is returned;
otherwise the larger operand. -/
def fmax : FVal → FVal → FVal
  | nan, b => b
  | a, nan => a
  | pinf, _ => pinf
  | _, pinf => pinf
  | ninf, b => b
  | a, ninf => a
  | fin a, fin b => fin (max a b)

/-- C library fmin: if exactly one operand is NaN the other one is returned;
otherwise the smaller operand. -/
def fmin : FVal → FVal → FVal
  | nan, b => b
  | a, nan => a
  | ninf, _ => ninf
  | _, ninf => ninf
  | pinf, b => b
  | a, pinf => a
  | fin a, fin b => fin (min a b)

/-- Hardware maxpd semantics, as exposed by the vector class max(a,b):
per lane, dest = (a greater than b) ? a : b, so if either operand is NaN the
second operand is returned. -/
def vmax : FVal → FVal → FVal
  | _, nan => nan
  | nan, b => b
  | pinf, _ => pinf
  | _, pinf => pinf
  | ninf, b => b
  | a, ninf => a
  | fin a, fin b => fin (max a b)

/-- Hardware minpd semantics, as exposed by the vector class min(a,b):
per lane, dest = (a less than b) ? a : b, so if either operand is NaN the
second operand is returned. -/
def vmin : FVal → FVal → FVal
  | _, nan => nan
  | nan, b => b
  | ninf, _ => ninf
  | _, ninf => ninf
  | pinf, b => b
  | a, pinf => a
  | fin a, fin b => fin (min a b)

end FVal

/-- IEEE double semantics with special values. -/
noncomputable def fvalOps : Ops FVal where
  add := FVal.add
  sub := FVal.sub
  exp := FVal.exp
  log := FVal.log
  log1p := FVal.log1p
  fmax := FVal.fmax
  fmin := FVal.fmin
  vmax := FVal.vmax
  vmin := FVal.vmin
  zero := FVal.fin 0

variable {α : Type} {β : Type} {γ : Type} {σ : Type}

/-- Option-valued fold, used to model loops whose body performs memory
reads: the first out-of-range read aborts the whole computation with none. -/
def ofoldM (f : σ → β → Option σ) : List β → σ → Option σ
  | [], s => some s
  | b :: l, s =>
    match f s b with
    | none => none
    | some s2 => ofoldM f l s2

/-- Option-valued map, used to model a batch of memory reads. -/
def omapM (f : β → Option γ) : List β → Option (List γ)
  | [] => some []
  | b :: l =>
    match f b with
    | none => none
    | some x =>
      match omapM f l with
      | none => none
      | some xs => some (x :: xs)

/-- vv().load(v + off): read w consecutive elements starting at offset off.
Each element is read through l[i]?, so any out-of-range lane gives none. -/
def vload (v : List α) : ℕ → ℕ → Option (List α)
  | _, 0 => some []
  | off, w + 1 =>
    match v[off]? with
    | none => none
    | some x =>
      match vload v (off + 1) w with
      | none => none
      | some xs => some (x :: xs)

/-- The pure value loaded by unrolled_load when all reads are in range:
bank number nn holds the w elements starting at offset i + nn*w. -/
def bankAt (v : List α) (i w N : ℕ) : List (List α) :=
  (List.range N).map fun nn => (v.drop (i + nn * w)).take w

/-- unrolled_load (logSum.hpp lines 28-36): vn[nn].load(v + i + nn*w) for
nn = 0 .. N-1. -/
def unrolled_load (v : List α) (i w N : ℕ) : Option (List (List α)) :=
  omapM (fun nn => vload v (i + nn * w) w) (List.range N)

/-- unrolled_subtract (logSum.hpp lines 48-56): vn[nn] -= mm for every
accumulator, with mm the broadcast scalar m. -/
def unrolled_subtract (ops : Ops α) (vn : List (List α)) (m : α) : List (List α) :=
  vn.map fun lane => lane.map fun x => ops.sub x m

/-- unrolled_exp_add (logSum.hpp lines 38-46): an[nn] += exp(vn[nn]) for
every accumulator, per lane. -/
def unrolled_exp_add (ops : Ops α) (an vn : List (List α)) : List (List α) :=
  List.zipWith (fun a l => List.zipWith (fun ai vi => ops.add ai (ops.exp vi)) a l) an vn

/-- unrolled_max (logSum.hpp lines 58-66): mn[nn] = max(mn[nn], vn[nn]) for
every accumulator, per lane, using the hardware vector max. -/
def unrolled_max (ops : Ops α) (mn vn : List (List α)) : List (List α) :=
  List.zipWith (fun m l => List.zipWith ops.vmax m l) mn vn

/-- The loop for (n=1; n<N; n++) mn[0] = max(mn[0], mn[n]) combining the N
vector accumulators into one vector (logSum.hpp lines 94-96); none when the
bank is empty (never the case for N at least 1). -/
def combineVmax (ops : Ops α) : List (List α) → Option (List α)
  | [] => none
  | a :: as => some (as.foldl (fun p q => List.zipWith ops.vmax p q) a)

/-- The loop for (n=1; n<N; n++) an[0] += an[n] combining the N vector
accumulators into one vector (logSum.hpp line 139). -/
def combineAdd (ops : Ops α) : List (List α) → Option (List α)
  | [] => none
  | a :: as => some (as.foldl (fun p q => List.zipWith ops.add p q) a)

/-- horizontal_add of the vector class: the sum of all lanes. -/
def horizontal_add (ops : Ops α) : List α → α
  | [] => ops.zero
  | x :: xs => xs.foldl ops.add x

/-- The scalar reduction m = mn[0][0]; for (i=1; i<w; i++) m = fmax(m, mn[0][i])
(logSum.hpp lines 98-99); none on an empty vector (never the case for w at
least 1). -/
def horizFmax (ops : Ops α) : List α → Option α
  | [] => none
  | x :: xs => some (xs.foldl ops.fmax x)

/-- max_element (logSum.hpp lines 75-102).  N is the accumulator count, w the
vector width vec of T width.  Translated line by line: the n == 1 early
return, the scalar fallback for length < N*w, the initial loads mn[n] =
load(v + n*w), the strided loop from i = N*w to l in steps of N*w, the
horizontal combination of the N accumulators, the horizontal fmax reduction
of the lanes, and the scalar fmax scan over the tail l..length-1. -/
def max_element (ops : Ops α) (N w : ℕ) (v : List α) : Option α :=
  let length := v.length
  if length = 1 then v[0]?
  else if length < N * w then do
    let m0 ← v[0]?
    ofoldM (fun m i => do
      let x ← v[i]?
      pure (ops.fmax m x)) (List.range' 1 (length - 1)) m0
  else do
    let l := length - length % (w * N)
    let mn0 ← unrolled_load v 0 w N
    let mn ← ofoldM (fun mn i => do
      let vn ← unrolled_load v i w N
      pure (unrolled_max ops mn vn)) (List.range' (N * w) (l / (N * w) - 1) (N * w)) mn0
    let m0 ← combineVmax ops mn
    let m1 ← horizFmax ops m0
    ofoldM (fun m i => do
      let x ← v[i]?
      pure (ops.fmax m x)) (List.range' l (length - l)) m1

/-- The scalar (non-SIMD) reference max_element of the fallback branch
(logSum.hpp lines 209-215): the n == 1 early return followed by a linear
fmax scan. -/
def max_element_scalar (ops : Ops α) (v : List α) : Option α :=
  let length := v.length
  if length = 1 then v[0]?
  else do
    let m0 ← v[0]?
    ofoldM (fun m i => do
      let x ← v[i]?
      pure (ops.fmax m x)) (List.range' 1 (length - 1)) m0

/-- logSum (logSum.hpp lines 116-143).  Computes the stabilised
log-sum-exp: m = max_element, N vector accumulators initialised to zero, a
fused load/subtract/exp/add pass over blocks of N*w elements (when l is at
least N*w), a scalar tail sum s of exp(v[i] - m) for i = l .. length-1, and
the final combination: for length at least N*w the N accumulators are summed
into one vector, horizontally added, s is added, and the result is
m + log of that total; otherwise the scalar m + log s. -/
def logSum (ops : Ops α) (N w : ℕ) (logV : List α) : Option α := do
  let m ← max_element ops N w logV
  let length := logV.length
  let l := length - length % (w * N)
  let an0 : List (List α) := List.replicate N (List.replicate w ops.zero)
  let an ←
    if N * w ≤ l then
      ofoldM (fun an i => do
        let vn ← unrolled_load logV i w N
        let vn2 := unrolled_subtract ops vn m
        pure (unrolled_exp_add ops an vn2)) (List.range' 0 (l / (N * w)) (N * w)) an0
    else pure an0
  let s ←
    if length < N * w ∨ l < length then
      ofoldM (fun s i => do
        let x ← logV[i]?
        pure (ops.add s (ops.exp (ops.sub x m)))) (List.range' l (length - l)) ops.zero
    else pure ops.zero
  if N * w ≤ length then do
    let a0 ← combineAdd ops an
    pure (ops.add m (ops.log (ops.add s (horizontal_add ops a0))))
  else
    pure (ops.add m (ops.log s))

/-- The default-accumulator-count logSum overload (logSum.hpp lines 156-160):
8 accumulators. -/
def logSumDefault (ops : Ops α) (w : ℕ) (logV : List α) : Option α :=
  logSum ops 8 w logV

/-- logSumN (logSum.hpp lines 170-179): runtime dispatch on the accumulator
count n, walking the compile-time counter down from N.  The general overload
checks n == N and otherwise recurses with N-1; overload resolution picks the
specialised base overload for the counter value 1, and that base overload
returns the default logSum (8 accumulators).  The argument n is a C int, so
it is modelled as an integer. -/
def logSumN (ops : Ops α) (w : ℕ) (logV : List α) (n : ℤ) : ℕ → Option α
  | 0 => logSumDefault ops w logV
  | 1 => logSumDefault ops w logV
  | N + 2 => if n = (N : ℤ) + 2 then logSum ops (N + 2) w logV else logSumN ops w logV n (N + 1)

/-- The accumulator count actually selected by the logSumN dispatch walk:
the compiled specialisation used for a requested count n when dispatch
starts at compile-time counter N. -/
def dispatchCount (n : ℤ) : ℕ → ℕ
  | 0 => 8
  | 1 => 8
  | N + 2 => if n = (N : ℤ) + 2 then N + 2 else dispatchCount n (N + 1)

/-- logAdd (logSum.hpp lines 181-206): elementwise stabilised
log(exp a + exp b) of two buffers, writing the result over the first buffer.
Vectorised blocks of w elements use the hardware max/min; the scalar tail
uses fmax/fmin.  The in-place store into logV1 is modelled by returning the
final contents of the first buffer. -/
def logAdd (ops : Ops α) (w : ℕ) (logV1 logV2 : List α) (length : ℕ) : Option (List α) := do
  let l := length - length % w
  let out ←
    if w ≤ l then
      ofoldM (fun out i => do
        let v1 ← vload out i w
        let v2 ← vload logV2 i w
        let ma := List.zipWith ops.vmax v1 v2
        let mi := List.zipWith ops.vmin v1 v2
        let ma2 := List.zipWith (fun hi lo => ops.add hi (ops.log1p (ops.exp (ops.sub lo hi)))) ma mi
        pure (out.take i ++ ma2 ++ out.drop (i + w))) (List.range' 0 (l / w) w) logV1
    else pure logV1
  if length < w ∨ l < length then
    ofoldM (fun out i => do
      let x ← out[i]?
      let y ← logV2[i]?
      let mma := ops.fmax x y
      let mmi := ops.fmin x y
      pure (out.set i (ops.add mma (ops.log1p (ops.exp (ops.sub mmi mma)))))) (List.range' l (length - l)) out
  else pure out

/-- logSumExp (src/logSum.cpp lines 30-34): the R-facing entry point.
Caps accumulators at MAX_ACCUMULATORS = 12 and dispatches through logSumN
starting at the compile-time counter 12. -/
def logSumExp (ops : Ops α) (w : ℕ) (logV : List α) (accumulators : ℤ) : Option α :=
  let acc := if 12 < accumulators then 12 else accumulators
  logSumN ops w logV acc 12

/-- colLogSumExps (src/logSum.cpp lines 53-63): caps accumulators at 12,
then for each column j of the column-major nRow-by-nCol matrix invokes
logSumN on the contiguous sub-buffer of length nRow starting at offset
j*nRow. -/
def colLogSumExps (ops : Ops α) (w : ℕ) (logV : List α) (nRow nCol : ℕ)
    (accumulators : ℤ) : List (Option α) :=
  let acc := if 12 < accumulators then 12 else accumulators
  (List.range nCol).map fun j => logSumN ops w ((logV.drop (j * nRow)).take nRow) acc 12

/-- logAddExp (src/logSum.cpp lines 89-102).  On a length mismatch the
result is a fresh length-1 vector holding NA_REAL (modelled as [none]; a
computed value x is modelled as some x).  Otherwise the result is a clone of
logA mutated in place by logAdd against logB.  The returned triple is
(result, final contents of the logA buffer, final contents of the logB
buffer), making the frame effect of the call explicit. -/
def logAddExp (ops : Ops α) (w : ℕ) (logA logB : List α) :
    Option (List (Option α) × List α × List α) :=
  if logA.length ≠ logB.length then
    some ([none], logA, logB)
  else do
    let result := logA
    let result2 ← logAdd ops w result logB logA.length
    pure (result2.map some, logA, logB)

/-! ### Generic infrastructure: flattened banks, option-fold conversion -/

/-- All lanes of a bank of vector accumulators, concatenated. -/
def lanes : List (List α) → List α
  | [] => []
  | l :: ls => l ++ lanes ls

/-- A bank consists of N vectors of w lanes each. -/
def bankDims (N w : ℕ) (b : List (List α)) : Prop :=
  b.length = N ∧ ∀ lane ∈ b, lane.length = w

/-- Iterated ops.add over a list, seeded with ops.zero. -/
def osum (ops : Ops α) : List α → α
  | [] => ops.zero
  | x :: xs => ops.add x (osum ops xs)

/-- The facts about ops.add and ops.zero needed for the summation
reasoning: a commutative monoid. -/
structure AddMonoidOps (ops : Ops α) : Prop where
  assoc : ∀ a b c, ops.add (ops.add a b) c = ops.add a (ops.add b c)
  comm : ∀ a b, ops.add a b = ops.add b a
  zero_add : ∀ a, ops.add ops.zero a = a

theorem ofoldM_eq_foldl (f : σ → β → Option σ) (g : σ → β → σ) :
    ∀ (l : List β) (s : σ), (∀ s2 b, b ∈ l → f s2 b = some (g s2 b)) →
      ofoldM f l s = some (l.foldl g s) := by
  intro l
  induction l with
  | nil => intro s _; rfl
  | cons b t ih =>
    intro s h
    have hb : f s b = some (g s b) := h s b (List.mem_cons_self b t)
    simp only [ofoldM, hb, List.foldl_cons]
    exact ih (g s b) fun s2 c hc => h s2 c (List.mem_cons_of_mem b hc)

theorem ofoldM_cons {f : σ → β → Option σ} {b : β} {l : List β} {s s2 : σ}
    (h : f s b = some s2) : ofoldM f (b :: l) s = ofoldM f l s2 := by
  rw [show ofoldM f (b :: l) s
    = (match f s b with | none => none | some s3 => ofoldM f l s3) from rfl, h]

theorem omapM_eq_map (f : β → Option γ) (g : β → γ) :
    ∀ l : List β, (∀ b ∈ l, f b = some (g b)) → omapM f l = some (l.map g) := by
  intro l
  induction l with
  | nil => intro _; rfl
  | cons b t ih =>
    intro h
    have hb : f b = some (g b) := h b (List.mem_cons_self b t)
    have ht := ih fun c hc => h c (List.mem_cons_of_mem b hc)
    simp only [omapM, hb, ht, List.map_cons]

theorem vload_eq (v : List α) :
    ∀ (w off : ℕ), off + w ≤ v.length → vload v off w = some ((v.drop off).take w) := by
  intro w
  induction w with
  | zero => intro off _; simp [vload]
  | succ k ih =>
    intro off h
    have hlt : off < v.length := by omega
    have hget : v[off]? = some v[off] := List.getElem?_eq_getElem hlt
    have hrec := ih (off + 1) (by omega)
    have hdrop : v.drop off = v[off] :: v.drop (off + 1) := List.drop_eq_getElem_cons hlt
    simp only [vload, hget, hrec, hdrop, List.take_succ_cons]

theorem unrolled_load_eq (v : List α) (i w N : ℕ) (h : i + N * w ≤ v.length) :
    unrolled_load v i w N = some (bankAt v i w N) := by
  unfold unrolled_load bankAt
  refine omapM_eq_map _ _ _ fun nn hnn => ?_
  have hlt : nn < N := List.mem_range.mp hnn
  exact vload_eq v w (i + nn * w) (by nlinarith)

theorem lanes_append (b1 b2 : List (List α)) :
    lanes (b1 ++ b2) = lanes b1 ++ lanes b2 := by
  induction b1 with
  | nil => rfl
  | cons l ls ih => simp [lanes, ih]

theorem mem_lanes {a : α} {b : List (List α)} :
    a ∈ lanes b ↔ ∃ lane ∈ b, a ∈ lane := by
  induction b with
  | nil => simp [lanes]
  | cons l ls ih => simp [lanes, ih]

theorem lanes_bankAt (v : List α) (w : ℕ) :
    ∀ (N i : ℕ), i + N * w ≤ v.length →
      lanes (bankAt v i w N) = (v.drop i).take (N * w) := by
  intro N
  induction N with
  | zero => intro i _; simp [bankAt, lanes]
  | succ k ih =>
    intro i h
    have hk : i + k * w ≤ v.length := by nlinarith
    have hrec := ih i hk
    simp only [bankAt, List.range_succ, List.map_append, List.map_cons, List.map_nil,
      lanes_append] at *
    rw [hrec]
    simp only [lanes, List.append_nil]
    have hmul : (k + 1) * w = k * w + w := by ring
    rw [hmul, List.take_add, List.drop_drop]

theorem bankAt_dims (v : List α) (i w N : ℕ) (h : i + N * w ≤ v.length) :
    bankDims N w (bankAt v i w N) := by
  constructor
  · simp [bankAt]
  · intro lane hlane
    simp only [bankAt, List.mem_map, List.mem_range] at hlane
    obtain ⟨nn, hnn, rfl⟩ := hlane
    have h1 : i + nn * w + w ≤ v.length := by nlinarith
    rw [List.length_take, List.length_drop]
    omega

theorem mem_of_mem_lanes_bankAt {v : List α} {i w N : ℕ} {a : α}
    (h : a ∈ lanes (bankAt v i w N)) : a ∈ v := by
  rcases mem_lanes.mp h with ⟨lane, hlane, ha⟩
  simp only [bankAt, List.mem_map, List.mem_range] at hlane
  obtain ⟨nn, _, rfl⟩ := hlane
  exact List.mem_of_mem_drop (List.mem_of_mem_take ha)

/-! ### Summation lemmas over a commutative monoid of operations -/

section SumLemmas

variable {ops : Ops α}

theorem osum_append (H : AddMonoidOps ops) (l1 l2 : List α) :
    osum ops (l1 ++ l2) = ops.add (osum ops l1) (osum ops l2) := by
  induction l1 with
  | nil => simp [osum, H.zero_add]
  | cons x xs ih => simp [osum, ih, H.assoc]

theorem add_zero_ops (H : AddMonoidOps ops) (a : α) : ops.add a ops.zero = a := by
  rw [H.comm]; exact H.zero_add a

theorem foldl_add_eq (H : AddMonoidOps ops) :
    ∀ (l : List α) (s : α), l.foldl ops.add s = ops.add s (osum ops l) := by
  intro l
  induction l with
  | nil => intro s; simp [osum, add_zero_ops H]
  | cons x xs ih =>
    intro s
    simp only [List.foldl_cons, osum, ih, H.assoc]

theorem horizontal_add_eq (H : AddMonoidOps ops) (l : List α) :
    horizontal_add ops l = osum ops l := by
  cases l with
  | nil => rfl
  | cons x xs => simp [horizontal_add, foldl_add_eq H, osum]

theorem add_add_add_comm_ops (H : AddMonoidOps ops) (a b c d : α) :
    ops.add (ops.add a b) (ops.add c d) = ops.add (ops.add a c) (ops.add b d) := by
  rw [H.assoc, H.assoc, ← H.assoc b c d, H.comm b c, H.assoc, ← H.assoc]

theorem osum_zipWith_add (H : AddMonoidOps ops) :
    ∀ (as bs : List α), as.length = bs.length →
      osum ops (List.zipWith ops.add as bs) = ops.add (osum ops as) (osum ops bs) := by
  intro as
  induction as with
  | nil =>
    intro bs h
    cases bs with
    | nil => simp [osum, H.zero_add]
    | cons y ys => simp at h
  | cons x xs ih =>
    intro bs h
    cases bs with
    | nil => simp at h
    | cons y ys =>
      simp only [List.zipWith_cons_cons, osum, ih ys (by simpa using h)]
      exact add_add_add_comm_ops H x y (osum ops xs) (osum ops ys)

theorem osum_zipWith_addf (H : AddMonoidOps ops) (f : α → α) :
    ∀ (as xs : List α), as.length = xs.length →
      osum ops (List.zipWith (fun a x => ops.add a (f x)) as xs) =
        ops.add (osum ops as) (osum ops (xs.map f)) := by
  intro as
  induction as with
  | nil =>
    intro xs h
    cases xs with
    | nil => simp [osum, H.zero_add]
    | cons y ys => simp at h
  | cons a as2 ih =>
    intro xs h
    cases xs with
    | nil => simp at h
    | cons y ys =>
      simp only [List.zipWith_cons_cons, osum, List.map_cons, ih ys (by simpa using h)]
      exact add_add_add_comm_ops H a (f y) (osum ops as2) (osum ops (ys.map f))

theorem mem_zipWith {g : α → β → γ} :
    ∀ {as : List α} {bs : List β} {c : γ}, c ∈ List.zipWith g as bs →
      ∃ a ∈ as, ∃ b ∈ bs, c = g a b := by
  intro as
  induction as with
  | nil => intro bs c h; simp at h
  | cons a as2 ih =>
    intro bs c h
    cases bs with
    | nil => simp at h
    | cons b bs2 =>
      rcases List.mem_cons.mp h with h1 | h2
      · exact ⟨a, List.mem_cons_self a as2, b, List.mem_cons_self b bs2, h1⟩
      · obtain ⟨a2, ha, b2, hb, rfl⟩ := ih h2
        exact ⟨a2, List.mem_cons_of_mem a ha, b2, List.mem_cons_of_mem b hb, rfl⟩

theorem bank_zipWith_dims {g : α → α → α} {N w : ℕ} {X Y : List (List α)}
    (hX : bankDims N w X) (hY : bankDims N w Y) :
    bankDims N w (List.zipWith (fun a l => List.zipWith g a l) X Y) := by
  constructor
  · rw [List.length_zipWith, hX.1, hY.1, min_self]
  · intro lane hlane
    obtain ⟨a, ha, b, hb, rfl⟩ := mem_zipWith hlane
    rw [List.length_zipWith, hX.2 a ha, hY.2 b hb, min_self]

theorem unrolled_subtract_dims {ops : Ops α} {N w : ℕ} {X : List (List α)} (m : α)
    (hX : bankDims N w X) : bankDims N w (unrolled_subtract ops X m) := by
  constructor
  · simp [unrolled_subtract, hX.1]
  · intro lane hlane
    simp only [unrolled_subtract, List.mem_map] at hlane
    obtain ⟨a, ha, rfl⟩ := hlane
    simp [hX.2 a ha]

theorem forall2_len_aux {w : ℕ} :
    ∀ (X Y : List (List α)), X.length = Y.length →
      (∀ l ∈ X, l.length = w) → (∀ l ∈ Y, l.length = w) →
      List.Forall₂ (fun (a b : List α) => a.length = b.length) X Y := by
  intro X
  induction X with
  | nil =>
    intro Y hlen _ _
    cases Y with
    | nil => exact List.Forall₂.nil
    | cons b bs => simp at hlen
  | cons a as ih =>
    intro Y hlen hX hY
    cases Y with
    | nil => simp at hlen
    | cons b bs =>
      refine List.Forall₂.cons ?_ ?_
      · rw [hX a (List.mem_cons_self a as), hY b (List.mem_cons_self b bs)]
      · exact ih bs (by simpa using hlen)
          (fun lane h => hX lane (List.mem_cons_of_mem a h))
          (fun lane h => hY lane (List.mem_cons_of_mem b h))

theorem forall2_len_of_dims {N w : ℕ} {X Y : List (List α)}
    (hX : bankDims N w X) (hY : bankDims N w Y) :
    List.Forall₂ (fun (a b : List α) => a.length = b.length) X Y :=
  forall2_len_aux X Y (hX.1.trans hY.1.symm) hX.2 hY.2

theorem osum_replicate_zero {ops : Ops α} (H : AddMonoidOps ops) :
    ∀ k : ℕ, osum ops (List.replicate k ops.zero) = ops.zero := by
  intro k
  induction k with
  | zero => rfl
  | succ n ih => simp [List.replicate_succ, osum, ih, H.zero_add]

theorem bank0_sum {ops : Ops α} (H : AddMonoidOps ops) (w : ℕ) :
    ∀ N : ℕ, osum ops (lanes (List.replicate N (List.replicate w ops.zero))) = ops.zero := by
  intro N
  induction N with
  | zero => rfl
  | succ n ih =>
    simp only [List.replicate_succ, lanes, osum_append H, ih,
      osum_replicate_zero H, H.zero_add]

theorem bank0_dims {ops : Ops α} (N w : ℕ) :
    bankDims N w (List.replicate N (List.replicate w ops.zero)) := by
  constructor
  · simp
  · intro lane hlane
    rw [List.eq_of_mem_replicate hlane]
    simp

theorem bank_exp_add_sum {ops : Ops α} (H : AddMonoidOps ops) (m : α) :
    ∀ (an vn : List (List α)),
      List.Forall₂ (fun (a b : List α) => a.length = b.length) an vn →
      osum ops (lanes (unrolled_exp_add ops an (unrolled_subtract ops vn m))) =
        ops.add (osum ops (lanes an))
          (osum ops ((lanes vn).map fun x => ops.exp (ops.sub x m))) := by
  intro an
  induction an with
  | nil =>
    intro vn h
    cases h
    simp [unrolled_exp_add, unrolled_subtract, lanes, osum, H.zero_add]
  | cons a as ih =>
    intro vn h
    cases h with
    | cons hlen htail =>
      rename_i b bs
      simp only [unrolled_subtract, unrolled_exp_add, List.map_cons, List.zipWith_cons_cons,
        lanes, osum_append H, List.map_append]
      rw [show List.zipWith (fun ai vi => ops.add ai (ops.exp vi)) a (b.map fun x => ops.sub x m)
            = List.zipWith (fun ai x => ops.add ai (ops.exp (ops.sub x m))) a b from
          List.zipWith_map_right ..]
      rw [osum_zipWith_addf H _ a b hlen]
      have hrec := ih bs htail
      simp only [unrolled_exp_add, unrolled_subtract] at hrec
      rw [hrec]
      exact add_add_add_comm_ops H _ _ _ _

theorem combineAdd_spec {ops : Ops α} (H : AddMonoidOps ops) {N w : ℕ}
    (an : List (List α)) (hd : bankDims N w an) (hN : 1 ≤ N) :
    ∃ c, combineAdd ops an = some c ∧ osum ops c = osum ops (lanes an) := by
  cases an with
  | nil => exact absurd hd.1 (by simpa using by omega)
  | cons a as =>
    refine ⟨_, rfl, ?_⟩
    have key : ∀ (bs : List (List α)) (a0 : List α), (∀ l ∈ bs, l.length = a0.length) →
        osum ops (bs.foldl (fun p q => List.zipWith ops.add p q) a0) =
          ops.add (osum ops a0) (osum ops (lanes bs)) := by
      intro bs
      induction bs with
      | nil => intro a0 _; simp [lanes, osum, add_zero_ops H]
      | cons b bs2 ih =>
        intro a0 hlen
        have hb : b.length = a0.length := hlen b (List.mem_cons_self b bs2)
        have hnext : ∀ l ∈ bs2, l.length = (List.zipWith ops.add a0 b).length := by
          intro l hl
          rw [List.length_zipWith, ← hb, min_self]
          exact (hlen l (List.mem_cons_of_mem b hl)).trans hb.symm
        simp only [List.foldl_cons, ih _ hnext, osum_zipWith_add H a0 b hb.symm, lanes,
          osum_append H, H.assoc]
    have hlanes : ∀ l ∈ as, l.length = a.length := by
      intro l hl
      rw [hd.2 l (List.mem_cons_of_mem a hl), hd.2 a (List.mem_cons_self a as)]
    rw [key as a hlanes]
    simp [lanes, osum_append H]

theorem foldl_getD (v : List α) (d : α) (gg : σ → α → σ) :
    ∀ (c start : ℕ) (s : σ), start + c ≤ v.length →
      (List.range' start c).foldl (fun s2 i => gg s2 (v.getD i d)) s
        = ((v.drop start).take c).foldl gg s := by
  intro c
  induction c with
  | zero => intro start s _; simp
  | succ k ih =>
    intro start s h
    have hlt : start < v.length := by omega
    have hdrop : v.drop start = v[start] :: v.drop (start + 1) := List.drop_eq_getElem_cons hlt
    rw [List.range'_succ, hdrop]
    simp only [List.foldl_cons, List.take_succ_cons]
    rw [List.getD_eq_getElem v d hlt]
    exact ih (start + 1) (gg s v[start]) (by omega)

theorem foldl_addf {ops : Ops α} (H : AddMonoidOps ops) (f : α → α) (xs : List α) (s : α) :
    xs.foldl (fun s2 x => ops.add s2 (f x)) s = ops.add s (osum ops (xs.map f)) := by
  rw [← List.foldl_map, foldl_add_eq H]

theorem sum_blocks {ops : Ops α} (H : AddMonoidOps ops) (v : List α) (m : α) (N w : ℕ) :
    ∀ (c start : ℕ) (an : List (List α)), start + c * (N * w) ≤ v.length →
      bankDims N w an →
      bankDims N w ((List.range' start c (N * w)).foldl
        (fun an2 i => unrolled_exp_add ops an2 (unrolled_subtract ops (bankAt v i w N) m)) an) ∧
      osum ops (lanes ((List.range' start c (N * w)).foldl
        (fun an2 i => unrolled_exp_add ops an2 (unrolled_subtract ops (bankAt v i w N) m)) an)) =
        ops.add (osum ops (lanes an))
          (osum ops (((v.drop start).take (c * (N * w))).map fun x => ops.exp (ops.sub x m))) := by
  intro c
  induction c with
  | zero =>
    intro start an _ hdims
    simp [hdims, osum, add_zero_ops H]
  | succ k ih =>
    intro start an hle hdims
    have hexp : (k + 1) * (N * w) = N * w + k * (N * w) := by ring
    have hstep : start + N * w ≤ v.length := by omega
    have hbdims := bankAt_dims v start w N hstep
    have hsdims : bankDims N w (unrolled_subtract ops (bankAt v start w N) m) :=
      unrolled_subtract_dims m hbdims
    have hgdims : bankDims N w
        (unrolled_exp_add ops an (unrolled_subtract ops (bankAt v start w N) m)) :=
      bank_zipWith_dims hdims hsdims
    have hbound : (start + N * w) + k * (N * w) ≤ v.length := by omega
    have hrec := ih (start + N * w)
      (unrolled_exp_add ops an (unrolled_subtract ops (bankAt v start w N) m)) hbound hgdims
    rw [List.range'_succ]
    simp only [List.foldl_cons]
    refine ⟨hrec.1, ?_⟩
    rw [hrec.2]
    rw [bank_exp_add_sum H m an (bankAt v start w N) (forall2_len_of_dims hdims hbdims)]
    rw [lanes_bankAt v w N start hstep]
    rw [H.assoc]
    congr 1
    rw [hexp, List.take_add, List.map_append, osum_append H, List.drop_drop]

/-- Characterisation of logSum over any commutative-monoid operation set:
whenever the max pass produced a value m, logSum returns
m + log (sum over the whole buffer of exp (x - m)), independently of the
accumulator count and vector width. -/
theorem logSum_spec {ops : Ops α} (H : AddMonoidOps ops) (N w : ℕ) (hN : 1 ≤ N) (hw : 1 ≤ w)
    (v : List α) (hv : v ≠ []) (m : α) (hm : max_element ops N w v = some m) :
    logSum ops N w v =
      some (ops.add m (ops.log (osum ops (v.map fun x => ops.exp (ops.sub x m))))) := by
  have hq : 0 < w * N := Nat.mul_pos hw hN
  have hlen : 1 ≤ v.length := List.length_pos.mpr hv
  have hmd := Nat.mod_add_div v.length (w * N)
  have hcomm : N * w = w * N := Nat.mul_comm N w
  unfold logSum
  rw [hm]
  simp only [Option.bind_eq_bind, Option.some_bind]
  rcases le_or_lt (N * w) v.length with hbig | hsmall
  · have hmod_lt : v.length % (w * N) < w * N := Nat.mod_lt _ hq
    have hl_le : v.length - v.length % (w * N) ≤ v.length := Nat.sub_le _ _
    have hlq : v.length - v.length % (w * N) = w * N * (v.length / (w * N)) := by omega
    have hdiv_ge : 1 ≤ v.length / (w * N) := (Nat.one_le_div_iff hq).mpr (by omega)
    have hl_ge : N * w ≤ v.length - v.length % (w * N) := by
      rw [hcomm, hlq]
      nlinarith
    have hBmul : (v.length - v.length % (w * N)) / (N * w) * (N * w)
        = v.length - v.length % (w * N) := by
      rw [hcomm, hlq, Nat.mul_div_cancel_left _ hq, mul_comm]
    rw [if_pos hl_ge]
    rw [ofoldM_eq_foldl _
      (fun an2 i => unrolled_exp_add ops an2 (unrolled_subtract ops (bankAt v i w N) m))
      _ _ ?load]
    case load =>
      intro an2 i hi
      rcases List.mem_range'.mp hi with ⟨kk, hkk, rfl⟩
      have hkk1 : (kk + 1) * (N * w) ≤ (v.length - v.length % (w * N)) / (N * w) * (N * w) :=
        Nat.mul_le_mul_right _ hkk
      have hiw : 0 + N * w * kk + N * w ≤ v.length := by
        rw [hBmul] at hkk1
        nlinarith
      rw [unrolled_load_eq v _ w N hiw]
      rfl
    simp only [Option.bind_eq_bind, Option.some_bind]
    have hblocks := sum_blocks H v m N w ((v.length - v.length % (w * N)) / (N * w)) 0
      (List.replicate N (List.replicate w ops.zero))
      (by rw [Nat.zero_add, hBmul]; exact hl_le)
      (bank0_dims N w)
    have hansum := hblocks.2
    rw [bank0_sum H w N, H.zero_add, List.drop_zero, hBmul] at hansum
    rcases lt_or_eq_of_le hl_le with hltail | hetail
    · rw [if_pos (Or.inr hltail)]
      rw [ofoldM_eq_foldl _
        (fun s2 i => ops.add s2 (ops.exp (ops.sub (v.getD i ops.zero) m)))
        _ _ ?tail]
      case tail =>
        intro s2 i hi
        rcases List.mem_range'.mp hi with ⟨kk, hkk, rfl⟩
        have hlt : v.length - v.length % (w * N) + 1 * kk < v.length := by omega
        dsimp only
        rw [List.getElem?_eq_getElem hlt, List.getD_eq_getElem v ops.zero hlt]
        rfl
      simp only [Option.bind_eq_bind, Option.some_bind]
      rw [foldl_getD v ops.zero (fun s2 x => ops.add s2 (ops.exp (ops.sub x m)))
        (v.length - (v.length - v.length % (w * N)))
        (v.length - v.length % (w * N)) ops.zero (by omega)]
      have hdl : (v.drop (v.length - v.length % (w * N))).length
          = v.length - (v.length - v.length % (w * N)) := List.length_drop ..
      rw [← hdl, List.take_length, foldl_addf H, H.zero_add]
      rw [if_pos hbig]
      obtain ⟨c, hc, hcsum⟩ := combineAdd_spec H _ hblocks.1 hN
      rw [hc]
      simp only [Option.bind_eq_bind, Option.some_bind]
      rw [horizontal_add_eq H, hcsum, hansum]
      have key : ops.add
          (osum ops ((v.drop (v.length - v.length % (w * N))).map
            fun x => ops.exp (ops.sub x m)))
          (osum ops ((v.take (v.length - v.length % (w * N))).map
            fun x => ops.exp (ops.sub x m)))
          = osum ops (v.map fun x => ops.exp (ops.sub x m)) := by
        rw [H.comm, ← osum_append H, ← List.map_append, List.take_append_drop]
      rw [key]
      rfl
    · rw [if_neg (by omega)]
      simp only [Option.pure_def, Option.bind_eq_bind, Option.some_bind]
      rw [if_pos hbig]
      obtain ⟨c, hc, hcsum⟩ := combineAdd_spec H _ hblocks.1 hN
      rw [hc]
      simp only [Option.bind_eq_bind, Option.some_bind]
      rw [horizontal_add_eq H, hcsum, hansum, H.zero_add, hetail, List.take_length]
  · have hmod : v.length % (w * N) = v.length := Nat.mod_eq_of_lt (by omega)
    have hl0 : v.length - v.length % (w * N) = 0 := by omega
    rw [hl0]
    rw [if_neg (by omega)]
    simp only [Option.pure_def, Option.bind_eq_bind, Option.some_bind]
    rw [if_pos (Or.inl hsmall)]
    rw [ofoldM_eq_foldl _
      (fun s2 i => ops.add s2 (ops.exp (ops.sub (v.getD i ops.zero) m)))
      _ _ ?tail2]
    case tail2 =>
      intro s2 i hi
      rcases List.mem_range'.mp hi with ⟨kk, hkk, rfl⟩
      have hlt : 0 + 1 * kk < v.length := by omega
      dsimp only
      rw [List.getElem?_eq_getElem hlt, List.getD_eq_getElem v ops.zero hlt]
      rfl
    simp only [Option.bind_eq_bind, Option.some_bind]
    rw [foldl_getD v ops.zero (fun s2 x => ops.add s2 (ops.exp (ops.sub x m)))
      (v.length - 0) 0 ops.zero (by omega)]
    rw [List.drop_zero, Nat.sub_zero, List.take_length, foldl_addf H, H.zero_add]
    rw [if_neg (by omega)]

end SumLemmas

/-! ### Max-reduction lemmas.

The hardware max/min primitives have platform-defined NaN behaviour, so the
correctness of max_element is proved relative to an abstract domain S of
well-behaved values (everything for exact reals, the non-NaN values for
IEEE doubles) and an order le on which fmax and vmax both behave as a
maximum. -/

/-- The facts about ops.fmax and ops.vmax needed for the max-reduction
reasoning, on a sub-domain S and relative to an order le. -/
structure MaxOps (ops : Ops α) (S : α → Prop) (le : α → α → Prop) : Prop where
  refl : ∀ a, S a → le a a
  trans : ∀ a b c, S a → S b → S c → le a b → le b c → le a c
  fmax_or : ∀ a b, S a → S b → ops.fmax a b = a ∨ ops.fmax a b = b
  fmax_left : ∀ a b, S a → S b → le a (ops.fmax a b)
  fmax_right : ∀ a b, S a → S b → le b (ops.fmax a b)
  vmax_or : ∀ a b, S a → S b → ops.vmax a b = a ∨ ops.vmax a b = b
  vmax_left : ∀ a b, S a → S b → le a (ops.vmax a b)
  vmax_right : ∀ a b, S a → S b → le b (ops.vmax a b)

section MaxLemmas

variable {ops : Ops α} {S : α → Prop} {le : α → α → Prop}

theorem foldl_fmax_spec (M : MaxOps ops S le) (v : List α) (hS : ∀ a ∈ v, S a) :
    ∀ (xs : List α) (x : α), x ∈ v → (∀ b ∈ xs, b ∈ v) →
      (xs.foldl ops.fmax x ∈ v) ∧ (xs.foldl ops.fmax x ∈ x :: xs) ∧
        le x (xs.foldl ops.fmax x) ∧ ∀ b ∈ xs, le b (xs.foldl ops.fmax x) := by
  intro xs
  induction xs with
  | nil =>
    intro x hx _
    exact ⟨hx, List.mem_cons_self x [], M.refl x (hS x hx), by simp⟩
  | cons b bs ih =>
    intro x hx hmem
    have hb : b ∈ v := hmem b (List.mem_cons_self b bs)
    have hfb : ops.fmax x b ∈ v := by
      rcases M.fmax_or x b (hS x hx) (hS b hb) with h | h <;> rw [h]
      · exact hx
      · exact hb
    have hrest : ∀ c ∈ bs, c ∈ v := fun c hc => hmem c (List.mem_cons_of_mem b hc)
    obtain ⟨h1, h2, h3, h4⟩ := ih (ops.fmax x b) hfb hrest
    simp only [List.foldl_cons]
    refine ⟨h1, ?_, ?_, ?_⟩
    · rcases List.mem_cons.mp h2 with h | h
      · rw [h]
        rcases M.fmax_or x b (hS x hx) (hS b hb) with hh | hh <;> rw [hh]
        · exact List.mem_cons_self x (b :: bs)
        · exact List.mem_cons_of_mem x (List.mem_cons_self b bs)
      · exact List.mem_cons_of_mem x (List.mem_cons_of_mem b h)
    · exact M.trans x (ops.fmax x b) _ (hS x hx) (hS _ hfb) (hS _ h1)
        (M.fmax_left x b (hS x hx) (hS b hb)) h3
    · intro c hc
      rcases List.mem_cons.mp hc with rfl | hcc
      · exact M.trans c (ops.fmax x c) _ (hS c hb) (hS _ hfb) (hS _ h1)
          (M.fmax_right x c (hS x hx) (hS c hb)) h3
      · exact h4 c hcc

theorem zipWith_exists_left {g : α → α → α} :
    ∀ (as bs : List α), as.length = bs.length → ∀ a ∈ as,
      ∃ b ∈ bs, g a b ∈ List.zipWith g as bs := by
  intro as
  induction as with
  | nil => intro bs _ a ha; simp at ha
  | cons x xs ih =>
    intro bs hlen a ha
    cases bs with
    | nil => simp at hlen
    | cons y ys =>
      rcases List.mem_cons.mp ha with rfl | haa
      · exact ⟨y, List.mem_cons_self y ys, List.mem_cons_self _ _⟩
      · obtain ⟨b, hb, hmem⟩ := ih ys (by simpa using hlen) a haa
        exact ⟨b, List.mem_cons_of_mem y hb, List.mem_cons_of_mem _ hmem⟩

theorem zipWith_exists_right {g : α → α → α} :
    ∀ (as bs : List α), as.length = bs.length → ∀ b ∈ bs,
      ∃ a ∈ as, g a b ∈ List.zipWith g as bs := by
  intro as
  induction as with
  | nil =>
    intro bs hlen b hb
    cases bs with
    | nil => simp at hb
    | cons y ys => simp at hlen
  | cons x xs ih =>
    intro bs hlen b hb
    cases bs with
    | nil => simp at hb
    | cons y ys =>
      rcases List.mem_cons.mp hb with rfl | hbb
      · exact ⟨x, List.mem_cons_self x xs, List.mem_cons_self _ _⟩
      · obtain ⟨a, ha, hmem⟩ := ih ys (by simpa using hlen) b hbb
        exact ⟨a, List.mem_cons_of_mem x ha, List.mem_cons_of_mem _ hmem⟩

theorem bank_mem {mn vn : List (List α)} {c : α}
    (h : c ∈ lanes (unrolled_max ops mn vn)) :
    ∃ a ∈ lanes mn, ∃ b ∈ lanes vn, c = ops.vmax a b := by
  rcases mem_lanes.mp h with ⟨lane, hlane, hc⟩
  obtain ⟨a0, ha0, b0, hb0, rfl⟩ := mem_zipWith hlane
  obtain ⟨a, ha, b, hb, rfl⟩ := mem_zipWith hc
  exact ⟨a, mem_lanes.mpr ⟨a0, ha0, ha⟩, b, mem_lanes.mpr ⟨b0, hb0, hb⟩, rfl⟩

theorem bank_exists_left :
    ∀ {mn vn : List (List α)},
      List.Forall₂ (fun (a b : List α) => a.length = b.length) mn vn →
      ∀ a ∈ lanes mn, ∃ c ∈ lanes (unrolled_max ops mn vn), ∃ b ∈ lanes vn, c = ops.vmax a b := by
  intro mn
  induction mn with
  | nil => intro vn h a ha; simp [lanes] at ha
  | cons l ls ih =>
    intro vn h a ha
    cases h with
    | cons hlen htail =>
      rename_i l2 ls2
      rcases List.mem_append.mp ha with hin | hin
      · obtain ⟨b, hb, hmem⟩ := zipWith_exists_left l l2 hlen a hin
        refine ⟨ops.vmax a b, ?_, b, ?_, rfl⟩
        · exact mem_lanes.mpr ⟨_, List.mem_cons_self _ _, hmem⟩
        · exact mem_lanes.mpr ⟨l2, List.mem_cons_self l2 ls2, hb⟩
      · obtain ⟨c, hc, b, hb, rfl⟩ := ih htail a hin
        rcases mem_lanes.mp hc with ⟨lane, hlane, hcl⟩
        refine ⟨ops.vmax a b, ?_, b, ?_, rfl⟩
        · exact mem_lanes.mpr ⟨lane, List.mem_cons_of_mem _ hlane, hcl⟩
        · rcases mem_lanes.mp hb with ⟨lane2, hlane2, hbl⟩
          exact mem_lanes.mpr ⟨lane2, List.mem_cons_of_mem l2 hlane2, hbl⟩

theorem bank_exists_right :
    ∀ {mn vn : List (List α)},
      List.Forall₂ (fun (a b : List α) => a.length = b.length) mn vn →
      ∀ b ∈ lanes vn, ∃ c ∈ lanes (unrolled_max ops mn vn), ∃ a ∈ lanes mn, c = ops.vmax a b := by
  intro mn
  induction mn with
  | nil =>
    intro vn h b hb
    cases h
    simp [lanes] at hb
  | cons l ls ih =>
    intro vn h b hb
    cases h with
    | cons hlen htail =>
      rename_i l2 ls2
      rcases List.mem_append.mp hb with hin | hin
      · obtain ⟨a, ha, hmem⟩ := zipWith_exists_right l l2 hlen b hin
        refine ⟨ops.vmax a b, ?_, a, ?_, rfl⟩
        · exact mem_lanes.mpr ⟨_, List.mem_cons_self _ _, hmem⟩
        · exact mem_lanes.mpr ⟨l, List.mem_cons_self l ls, ha⟩
      · obtain ⟨c, hc, a, ha, rfl⟩ := ih htail b hin
        rcases mem_lanes.mp hc with ⟨lane, hlane, hcl⟩
        refine ⟨ops.vmax a b, ?_, a, ?_, rfl⟩
        · exact mem_lanes.mpr ⟨lane, List.mem_cons_of_mem _ hlane, hcl⟩
        · rcases mem_lanes.mp ha with ⟨lane2, hlane2, hal⟩
          exact mem_lanes.mpr ⟨lane2, List.mem_cons_of_mem l hlane2, hal⟩

end MaxLemmas

/-- The pure value computed by max_element on a non-empty buffer: the same
branch structure with all memory reads resolved.  The fallback arms of the
two matches are unreachable when N and w are at least 1. -/
def maxRun (ops : Ops α) (N w : ℕ) (x : α) (xs : List α) : α :=
  let v := x :: xs
  if v.length = 1 then x
  else if v.length < N * w then xs.foldl ops.fmax x
  else
    let l := v.length - v.length % (w * N)
    let mn := (List.range' (N * w) (l / (N * w) - 1) (N * w)).foldl
      (fun mn2 i => unrolled_max ops mn2 (bankAt v i w N)) (bankAt v 0 w N)
    let m1 :=
      match combineVmax ops mn with
      | none => x
      | some c =>
        match horizFmax ops c with
        | none => x
        | some m1 => m1
    (v.drop l).foldl ops.fmax m1

section MaxRunLemmas

variable {ops : Ops α}

theorem max_fold_dims (v : List α) {N w : ℕ} :
    ∀ (is : List ℕ) (mn : List (List α)), bankDims N w mn →
      (∀ i ∈ is, i + N * w ≤ v.length) →
      bankDims N w (is.foldl (fun mn2 i => unrolled_max ops mn2 (bankAt v i w N)) mn) := by
  intro is
  induction is with
  | nil => intro mn h _; exact h
  | cons i is2 ih =>
    intro mn h hbound
    simp only [List.foldl_cons]
    exact ih _
      (bank_zipWith_dims h (bankAt_dims v i w N (hbound i (List.mem_cons_self i is2))))
      (fun j hj => hbound j (List.mem_cons_of_mem i hj))

theorem combineVmax_lite {N w : ℕ} (mn : List (List α)) (hd : bankDims N w mn) (hN : 1 ≤ N) :
    ∃ c, combineVmax ops mn = some c ∧ c.length = w := by
  cases mn with
  | nil => exact absurd hd.1 (by simpa using by omega)
  | cons a as =>
    refine ⟨_, rfl, ?_⟩
    have key : ∀ (bs : List (List α)) (a0 : List α), (∀ l ∈ bs, l.length = a0.length) →
        (bs.foldl (fun p q => List.zipWith ops.vmax p q) a0).length = a0.length := by
      intro bs
      induction bs with
      | nil => intro a0 _; rfl
      | cons b bs2 ih =>
        intro a0 hlen
        have hb : b.length = a0.length := hlen b (List.mem_cons_self b bs2)
        have hzlen : (List.zipWith ops.vmax a0 b).length = a0.length := by
          rw [List.length_zipWith, hb, min_self]
        simp only [List.foldl_cons]
        rw [ih (List.zipWith ops.vmax a0 b)
          (fun l hl => by rw [hzlen]; exact hlen l (List.mem_cons_of_mem b hl)), hzlen]
    have ha : a.length = w := hd.2 a (List.mem_cons_self a as)
    rw [key as a (fun l hl => by
      rw [hd.2 l (List.mem_cons_of_mem a hl), ha]), ha]

theorem max_element_run (N w : ℕ) (hN : 1 ≤ N) (hw : 1 ≤ w) (x : α) (xs : List α) :
    max_element ops N w (x :: xs) = some (maxRun ops N w x xs) := by
  unfold max_element maxRun
  by_cases h1 : (x :: xs).length = 1
  · rw [if_pos h1, if_pos h1]
    simp
  rw [if_neg h1, if_neg h1]
  by_cases h2 : (x :: xs).length < N * w
  · rw [if_pos h2, if_pos h2]
    simp only [List.getElem?_cons_zero, Option.bind_eq_bind, Option.some_bind]
    rw [ofoldM_eq_foldl _ (fun m i => ops.fmax m ((x :: xs).getD i ops.zero)) _ _ ?sreads]
    case sreads =>
      intro s2 i hi
      rcases List.mem_range'.mp hi with ⟨kk, hkk, rfl⟩
      have hlt : 1 + 1 * kk < (x :: xs).length := by
        simp only [List.length_cons] at hkk ⊢
        omega
      dsimp only
      rw [List.getElem?_eq_getElem hlt, List.getD_eq_getElem _ ops.zero hlt]
      rfl
    rw [foldl_getD (x :: xs) ops.zero ops.fmax ((x :: xs).length - 1) 1 x
      (by simp only [List.length_cons]; omega)]
    have hxs : ((x :: xs).drop 1).take ((x :: xs).length - 1) = xs := by
      simp
    rw [hxs]
  · rw [if_neg h2, if_neg h2]
    have hbig : N * w ≤ (x :: xs).length := le_of_not_lt h2
    have hq : 0 < w * N := Nat.mul_pos hw hN
    have hmd := Nat.mod_add_div (x :: xs).length (w * N)
    have hmod_lt : (x :: xs).length % (w * N) < w * N := Nat.mod_lt _ hq
    have hl_le : (x :: xs).length - (x :: xs).length % (w * N) ≤ (x :: xs).length :=
      Nat.sub_le _ _
    have hlq : (x :: xs).length - (x :: xs).length % (w * N)
        = w * N * ((x :: xs).length / (w * N)) := by omega
    have hBmul : ((x :: xs).length - (x :: xs).length % (w * N)) / (N * w) * (N * w)
        = (x :: xs).length - (x :: xs).length % (w * N) := by
      rw [Nat.mul_comm N w, hlq, Nat.mul_div_cancel_left _ hq, mul_comm]
    rw [unrolled_load_eq _ 0 w N (by omega)]
    simp only [Option.bind_eq_bind, Option.some_bind]
    rw [ofoldM_eq_foldl _
      (fun mn2 i => unrolled_max ops mn2 (bankAt (x :: xs) i w N)) _ _ ?vreads]
    case vreads =>
      intro mn2 i hi
      rcases List.mem_range'.mp hi with ⟨kk, hkk, rfl⟩
      have hkk2 : (kk + 2) * (N * w)
          ≤ ((x :: xs).length - (x :: xs).length % (w * N)) / (N * w) * (N * w) := by
        apply Nat.mul_le_mul_right
        omega
      rw [hBmul] at hkk2
      have hiw : N * w + N * w * kk + N * w ≤ (x :: xs).length := by nlinarith
      rw [unrolled_load_eq _ _ w N hiw]
      rfl
    simp only [Option.bind_eq_bind, Option.some_bind]
    have hdims := @max_fold_dims α ops (x :: xs) N w
      (List.range' (N * w)
        (((x :: xs).length - (x :: xs).length % (w * N)) / (N * w) - 1) (N * w))
      (bankAt (x :: xs) 0 w N)
      (bankAt_dims _ 0 w N (by omega))
      (by
        intro i hi
        rcases List.mem_range'.mp hi with ⟨kk, hkk, rfl⟩
        have hkk2 : (kk + 2) * (N * w)
            ≤ ((x :: xs).length - (x :: xs).length % (w * N)) / (N * w) * (N * w) := by
          apply Nat.mul_le_mul_right
          omega
        rw [hBmul] at hkk2
        nlinarith)
    obtain ⟨c, hc, hclen⟩ := combineVmax_lite _ hdims hN
    rw [hc]
    simp only [Option.bind_eq_bind, Option.some_bind]
    cases c with
    | nil => rw [← hclen] at hw; simp at hw
    | cons y ys =>
      simp only [horizFmax, Option.bind_eq_bind, Option.some_bind]
      rw [ofoldM_eq_foldl _ (fun m i => ops.fmax m ((x :: xs).getD i ops.zero)) _ _ ?treads]
      case treads =>
        intro s2 i hi
        rcases List.mem_range'.mp hi with ⟨kk, hkk, rfl⟩
        have hlt : (x :: xs).length - (x :: xs).length % (w * N) + 1 * kk
            < (x :: xs).length := by omega
        dsimp only
        rw [List.getElem?_eq_getElem hlt, List.getD_eq_getElem _ ops.zero hlt]
        rfl
      rw [foldl_getD (x :: xs) ops.zero ops.fmax
        ((x :: xs).length - ((x :: xs).length - (x :: xs).length % (w * N)))
        ((x :: xs).length - (x :: xs).length % (w * N)) (ys.foldl ops.fmax y) (by omega)]
      have hdl : (((x :: xs).drop
            ((x :: xs).length - (x :: xs).length % (w * N)))).length
          = (x :: xs).length - ((x :: xs).length - (x :: xs).length % (w * N)) :=
        List.length_drop ..
      rw [← hdl, List.take_length]

theorem max_element_scalar_run (x : α) (xs : List α) :
    max_element_scalar ops (x :: xs) = some (xs.foldl ops.fmax x) := by
  unfold max_element_scalar
  by_cases h1 : (x :: xs).length = 1
  · rw [if_pos h1]
    have hxs : xs = [] := by
      simpa using List.length_eq_zero.mp (by simpa using h1)
    subst hxs
    simp
  · rw [if_neg h1]
    simp only [List.getElem?_cons_zero, Option.bind_eq_bind, Option.some_bind]
    rw [ofoldM_eq_foldl _ (fun m i => ops.fmax m ((x :: xs).getD i ops.zero)) _ _ ?sreads]
    case sreads =>
      intro s2 i hi
      rcases List.mem_range'.mp hi with ⟨kk, hkk, rfl⟩
      have hlt : 1 + 1 * kk < (x :: xs).length := by
        simp only [List.length_cons] at hkk ⊢
        omega
      dsimp only
      rw [List.getElem?_eq_getElem hlt, List.getD_eq_getElem _ ops.zero hlt]
      rfl
    rw [foldl_getD (x :: xs) ops.zero ops.fmax ((x :: xs).length - 1) 1 x
      (by simp only [List.length_cons]; omega)]
    have hxs : ((x :: xs).drop 1).take ((x :: xs).length - 1) = xs := by
      simp
    rw [hxs]

end MaxRunLemmas

section MaxSpec

variable {ops : Ops α} {S : α → Prop} {le : α → α → Prop}

theorem max_blocks (M : MaxOps ops S le) (v : List α) {N w : ℕ} (hS : ∀ a ∈ v, S a) :
    ∀ (c start : ℕ) (mn : List (List α)), start + c * (N * w) ≤ v.length →
      bankDims N w mn → (∀ a ∈ lanes mn, a ∈ v) →
      (∀ y ∈ v.take start, ∃ a ∈ lanes mn, le y a) →
      bankDims N w ((List.range' start c (N * w)).foldl
        (fun mn2 i => unrolled_max ops mn2 (bankAt v i w N)) mn) ∧
      (∀ a ∈ lanes ((List.range' start c (N * w)).foldl
        (fun mn2 i => unrolled_max ops mn2 (bankAt v i w N)) mn), a ∈ v) ∧
      (∀ y ∈ v.take (start + c * (N * w)), ∃ a ∈ lanes ((List.range' start c (N * w)).foldl
        (fun mn2 i => unrolled_max ops mn2 (bankAt v i w N)) mn), le y a) := by
  intro c
  induction c with
  | zero =>
    intro start mn _ hdims hmem hcov
    simpa using ⟨hdims, hmem, hcov⟩
  | succ k ih =>
    intro start mn hle hdims hmem hcov
    have hexp : (k + 1) * (N * w) = N * w + k * (N * w) := by ring
    have hstep : start + N * w ≤ v.length := by omega
    have hbdims := bankAt_dims v start w N hstep
    have hmem2 : ∀ a ∈ lanes (unrolled_max ops mn (bankAt v start w N)), a ∈ v := by
      intro a ha
      obtain ⟨a0, ha0, b0, hb0, rfl⟩ := bank_mem ha
      have hav := hmem a0 ha0
      have hbv := mem_of_mem_lanes_bankAt hb0
      rcases M.vmax_or a0 b0 (hS _ hav) (hS _ hbv) with h | h <;> rw [h]
      · exact hav
      · exact hbv
    have hcov2 : ∀ y ∈ v.take (start + N * w),
        ∃ a ∈ lanes (unrolled_max ops mn (bankAt v start w N)), le y a := by
      intro y hy
      rw [List.take_add] at hy
      rcases List.mem_append.mp hy with hyo | hyn
      · obtain ⟨a, ha, hya⟩ := hcov y hyo
        obtain ⟨c2, hc2, b, hb, rfl⟩ :=
          bank_exists_left (forall2_len_of_dims hdims hbdims) a ha
        refine ⟨ops.vmax a b, hc2, ?_⟩
        have hyv : y ∈ v := List.mem_of_mem_take hyo
        have hav : a ∈ v := hmem a ha
        have hbv : b ∈ v := mem_of_mem_lanes_bankAt hb
        have hcv : ops.vmax a b ∈ v := hmem2 _ hc2
        exact M.trans y a _ (hS y hyv) (hS a hav) (hS _ hcv) hya
          (M.vmax_left a b (hS a hav) (hS b hbv))
      · have hyl : y ∈ lanes (bankAt v start w N) := by
          rw [lanes_bankAt v w N start hstep]
          simpa using hyn
        obtain ⟨c2, hc2, a, ha, rfl⟩ :=
          bank_exists_right (forall2_len_of_dims hdims hbdims) y hyl
        have hyv : y ∈ v := mem_of_mem_lanes_bankAt hyl
        have hav : a ∈ v := hmem a ha
        exact ⟨ops.vmax a y, hc2, M.vmax_right a y (hS a hav) (hS y hyv)⟩
    have hbound : (start + N * w) + k * (N * w) ≤ v.length := by omega
    have hrec := ih (start + N * w) (unrolled_max ops mn (bankAt v start w N)) hbound
      (bank_zipWith_dims hdims hbdims) hmem2 hcov2
    rw [List.range'_succ]
    simp only [List.foldl_cons]
    have harith : start + N * w + k * (N * w) = start + (k + 1) * (N * w) := by ring
    rw [harith] at hrec
    exact hrec

theorem combineVmax_spec (M : MaxOps ops S le) (v : List α) (hS : ∀ a ∈ v, S a) {N w : ℕ}
    (mn : List (List α)) (hd : bankDims N w mn) (hN : 1 ≤ N)
    (hmem : ∀ a ∈ lanes mn, a ∈ v) :
    ∃ c, combineVmax ops mn = some c ∧ c.length = w ∧ (∀ z ∈ c, z ∈ v) ∧
      ∀ a ∈ lanes mn, ∃ z ∈ c, le a z := by
  cases mn with
  | nil => exact absurd hd.1 (by simpa using by omega)
  | cons a as =>
    refine ⟨_, rfl, ?_, ?_, ?_⟩
    all_goals {
      have key : ∀ (bs : List (List α)) (a0 : List α), (∀ l ∈ bs, l.length = a0.length) →
          (∀ y ∈ a0, y ∈ v) → (∀ l ∈ bs, ∀ y ∈ l, y ∈ v) →
          (bs.foldl (fun p q => List.zipWith ops.vmax p q) a0).length = a0.length ∧
          (∀ z ∈ bs.foldl (fun p q => List.zipWith ops.vmax p q) a0, z ∈ v) ∧
          (∀ y ∈ a0, ∃ z ∈ bs.foldl (fun p q => List.zipWith ops.vmax p q) a0, le y z) ∧
          (∀ l ∈ bs, ∀ y ∈ l, ∃ z ∈ bs.foldl (fun p q => List.zipWith ops.vmax p q) a0, le y z) := by
        intro bs
        induction bs with
        | nil =>
          intro a0 _ hmem0 _
          exact ⟨rfl, hmem0, fun y hy => ⟨y, hy, M.refl y (hS y (hmem0 y hy))⟩, by simp⟩
        | cons b bs2 ih =>
          intro a0 hlen hmem0 hmemb
          have hb : b.length = a0.length := hlen b (List.mem_cons_self b bs2)
          have hbv : ∀ y ∈ b, y ∈ v := hmemb b (List.mem_cons_self b bs2)
          have hzmem : ∀ y ∈ List.zipWith ops.vmax a0 b, y ∈ v := by
            intro y hy
            obtain ⟨p, hp, q, hq, rfl⟩ := mem_zipWith hy
            rcases M.vmax_or p q (hS p (hmem0 p hp)) (hS q (hbv q hq)) with h | h <;> rw [h]
            · exact hmem0 p hp
            · exact hbv q hq
          have hzlen : (List.zipWith ops.vmax a0 b).length = a0.length := by
            rw [List.length_zipWith, hb, min_self]
          have hforward : ∀ l ∈ bs2, l.length = (List.zipWith ops.vmax a0 b).length := by
            intro l hl
            rw [hzlen]
            exact hlen l (List.mem_cons_of_mem b hl)
          have hmemb2 : ∀ l ∈ bs2, ∀ y ∈ l, y ∈ v :=
            fun l hl => hmemb l (List.mem_cons_of_mem b hl)
          obtain ⟨l1, l2, l3, l4⟩ := ih (List.zipWith ops.vmax a0 b) hforward hzmem hmemb2
          simp only [List.foldl_cons]
          refine ⟨l1.trans hzlen, l2, ?_, ?_⟩
          · intro y hy
            obtain ⟨q, hq, hzin⟩ := zipWith_exists_left a0 b hb.symm y hy
            obtain ⟨z, hz, hlez⟩ := l3 _ hzin
            refine ⟨z, hz, ?_⟩
            have hyv : y ∈ v := hmem0 y hy
            have hqv : q ∈ v := hbv q hq
            have hzv : ops.vmax y q ∈ v := hzmem _ hzin
            exact M.trans y _ z (hS y hyv) (hS _ hzv) (hS z (l2 z hz))
              (M.vmax_left y q (hS y hyv) (hS q hqv)) hlez
          · intro l hl y hy
            rcases List.mem_cons.mp hl with rfl | hl2
            · obtain ⟨p, hp, hzin⟩ := zipWith_exists_right a0 l hb.symm y hy
              obtain ⟨z, hz, hlez⟩ := l3 _ hzin
              refine ⟨z, hz, ?_⟩
              have hyv : y ∈ v := hbv y hy
              have hpv : p ∈ v := hmem0 p hp
              have hzv : ops.vmax p y ∈ v := hzmem _ hzin
              exact M.trans y _ z (hS y hyv) (hS _ hzv) (hS z (l2 z hz))
                (M.vmax_right p y (hS p hpv) (hS y hyv)) hlez
            · exact l4 l hl2 y hy
      have ha0len : a.length = w := hd.2 a (List.mem_cons_self a as)
      have hlall : ∀ l ∈ as, l.length = a.length := by
        intro l hl
        rw [hd.2 l (List.mem_cons_of_mem a hl), ha0len]
      have hmema : ∀ y ∈ a, y ∈ v := by
        intro y hy
        exact hmem y (mem_lanes.mpr ⟨a, List.mem_cons_self a as, hy⟩)
      have hmemas : ∀ l ∈ as, ∀ y ∈ l, y ∈ v := by
        intro l hl y hy
        exact hmem y (mem_lanes.mpr ⟨l, List.mem_cons_of_mem a hl, hy⟩)
      obtain ⟨k1, k2, k3, k4⟩ := key as a hlall hmema hmemas
      first
      | exact k1.trans ha0len
      | exact k2
      | {
          intro z hz
          rcases mem_lanes.mp hz with ⟨lane, hlane, hzl⟩
          rcases List.mem_cons.mp hlane with rfl | hlane2
          · exact k3 z hzl
          · exact k4 lane hlane2 z hzl
        }
    }

theorem max_element_spec (M : MaxOps ops S le) (N w : ℕ) (hN : 1 ≤ N) (hw : 1 ≤ w)
    (x : α) (xs : List α) (hS : ∀ a ∈ x :: xs, S a) :
    ∃ m, max_element ops N w (x :: xs) = some m ∧ m ∈ x :: xs ∧ ∀ a ∈ x :: xs, le a m := by
  refine ⟨maxRun ops N w x xs, max_element_run N w hN hw x xs, ?_⟩
  unfold maxRun
  by_cases h1 : (x :: xs).length = 1
  · rw [if_pos h1]
    have hxs : xs = [] := List.length_eq_zero.mp (by simpa using h1)
    subst hxs
    refine ⟨List.mem_cons_self x [], ?_⟩
    intro a ha
    rcases List.mem_cons.mp ha with rfl | h
    · exact M.refl a (hS a ha)
    · simp at h
  rw [if_neg h1]
  by_cases h2 : (x :: xs).length < N * w
  · rw [if_pos h2]
    obtain ⟨p1, p2, p3, p4⟩ := foldl_fmax_spec M (x :: xs) hS xs x
      (List.mem_cons_self x xs) (fun b hb => List.mem_cons_of_mem x hb)
    refine ⟨p2, ?_⟩
    intro a ha
    rcases List.mem_cons.mp ha with rfl | h
    · exact p3
    · exact p4 a h
  · rw [if_neg h2]
    have hbig : N * w ≤ (x :: xs).length := le_of_not_lt h2
    have hq : 0 < w * N := Nat.mul_pos hw hN
    have hmd := Nat.mod_add_div (x :: xs).length (w * N)
    have hmod_lt : (x :: xs).length % (w * N) < w * N := Nat.mod_lt _ hq
    have hl_le : (x :: xs).length - (x :: xs).length % (w * N) ≤ (x :: xs).length :=
      Nat.sub_le _ _
    have hlq : (x :: xs).length - (x :: xs).length % (w * N)
        = w * N * ((x :: xs).length / (w * N)) := by omega
    have hBmul : ((x :: xs).length - (x :: xs).length % (w * N)) / (N * w) * (N * w)
        = (x :: xs).length - (x :: xs).length % (w * N) := by
      rw [Nat.mul_comm N w, hlq, Nat.mul_div_cancel_left _ hq, mul_comm]
    have hl_ge : N * w ≤ (x :: xs).length - (x :: xs).length % (w * N) := by
      rw [Nat.mul_comm N w, hlq]
      have h1d : 1 ≤ (x :: xs).length / (w * N) :=
        (Nat.one_le_div_iff hq).mpr (by rw [Nat.mul_comm w N]; exact hbig)
      nlinarith
    have hNwpos : 0 < N * w := Nat.mul_pos hN hw
    have hB1 : 1 ≤ ((x :: xs).length - (x :: xs).length % (w * N)) / (N * w) :=
      (Nat.one_le_div_iff hNwpos).mpr hl_ge
    have harith2 : N * w + (((x :: xs).length - (x :: xs).length % (w * N)) / (N * w) - 1)
        * (N * w) = (x :: xs).length - (x :: xs).length % (w * N) := by
      have hsucc : (((x :: xs).length - (x :: xs).length % (w * N)) / (N * w) - 1) + 1
          = ((x :: xs).length - (x :: xs).length % (w * N)) / (N * w) := by omega
      calc N * w + (((x :: xs).length - (x :: xs).length % (w * N)) / (N * w) - 1) * (N * w)
          = ((((x :: xs).length - (x :: xs).length % (w * N)) / (N * w) - 1) + 1) * (N * w) := by
            ring
        _ = ((x :: xs).length - (x :: xs).length % (w * N)) / (N * w) * (N * w) := by
            rw [hsucc]
        _ = (x :: xs).length - (x :: xs).length % (w * N) := hBmul
    have hblocks := max_blocks M (x :: xs) hS
      (((x :: xs).length - (x :: xs).length % (w * N)) / (N * w) - 1) (N * w)
      (bankAt (x :: xs) 0 w N)
      (by rw [harith2]; exact hl_le)
      (bankAt_dims _ 0 w N (by simpa using hbig))
      (fun a ha => mem_of_mem_lanes_bankAt ha)
      (by
        intro y hy
        have hy2 : y ∈ lanes (bankAt (x :: xs) 0 w N) := by
          rw [lanes_bankAt _ w N 0 (by simpa using hbig)]
          simpa using hy
        exact ⟨y, hy2, M.refl y (hS y (mem_of_mem_lanes_bankAt hy2))⟩)
    rw [harith2] at hblocks
    obtain ⟨hdimsf, hmemf, hcovf⟩ := hblocks
    obtain ⟨c, hc, hclen, hcmem, hcdom⟩ := combineVmax_spec M (x :: xs) hS _ hdimsf hN hmemf
    dsimp only
    rw [hc]
    cases c with
    | nil => rw [← hclen] at hw; simp at hw
    | cons y ys =>
      simp only [horizFmax]
      have hymem : y ∈ x :: xs := hcmem y (List.mem_cons_self y ys)
      have hysmem : ∀ b ∈ ys, b ∈ x :: xs := fun b hb => hcmem b (List.mem_cons_of_mem y hb)
      obtain ⟨q1, q2, q3, q4⟩ := foldl_fmax_spec M (x :: xs) hS ys y hymem hysmem
      have hcdomm1 : ∀ z ∈ y :: ys, le z (ys.foldl ops.fmax y) := by
        intro z hz
        rcases List.mem_cons.mp hz with rfl | h
        · exact q3
        · exact q4 z h
      obtain ⟨t1, t2, t3, t4⟩ := foldl_fmax_spec M (x :: xs) hS
        ((x :: xs).drop ((x :: xs).length - (x :: xs).length % (w * N)))
        (ys.foldl ops.fmax y) q1 (fun b hb => List.mem_of_mem_drop hb)
      refine ⟨t1, ?_⟩
      intro a ha
      have hsplit : a ∈ (x :: xs).take ((x :: xs).length - (x :: xs).length % (w * N))
          ++ (x :: xs).drop ((x :: xs).length - (x :: xs).length % (w * N)) := by
        rw [List.take_append_drop]
        exact ha
      rcases List.mem_append.mp hsplit with hin | hin
      · obtain ⟨b, hb, hab⟩ := hcovf a hin
        obtain ⟨z, hz, hbz⟩ := hcdom b hb
        have hzm1 : le z (ys.foldl ops.fmax y) := hcdomm1 z hz
        have hav : a ∈ x :: xs := ha
        have hbv : b ∈ x :: xs := hmemf b hb
        have hzv : z ∈ x :: xs := hcmem z hz
        have haz : le a z := M.trans a b z (hS a hav) (hS b hbv) (hS z hzv) hab hbz
        have ham1 : le a (ys.foldl ops.fmax y) :=
          M.trans a z _ (hS a hav) (hS z hzv) (hS _ q1) haz hzm1
        exact M.trans a _ _ (hS a hav) (hS _ q1) (hS _ t1) ham1 t3
      · exact t4 a hin

end MaxSpec

/-! ### Dispatch lemmas -/

theorem logSumN_eq_dispatch (ops : Ops α) (w : ℕ) (logV : List α) (n : ℤ) :
    ∀ K, logSumN ops w logV n K = logSum ops (dispatchCount n K) w logV := by
  intro K
  induction K using Nat.strong_induction_on with
  | _ K ih =>
    match K with
    | 0 => rfl
    | 1 => rfl
    | K + 2 =>
      simp only [logSumN, dispatchCount]
      split
      · rfl
      · exact ih (K + 1) (by omega)

theorem dispatchCount_in_range :
    ∀ (K : ℕ) (n : ℤ), 2 ≤ n → n ≤ (K : ℤ) → dispatchCount n K = n.toNat := by
  intro K
  induction K using Nat.strong_induction_on with
  | _ K ih =>
    match K with
    | 0 => intro n h2 hK; omega
    | 1 => intro n h2 hK; simp at hK; omega
    | K + 2 =>
      intro n h2 hK
      simp only [dispatchCount]
      split
      · rename_i h
        omega
      · rename_i h
        exact ih (K + 1) (by omega) n h2 (by push_cast at hK ⊢; omega)

theorem dispatchCount_default :
    ∀ (K : ℕ) (n : ℤ), n ≤ 1 ∨ (K : ℤ) < n → dispatchCount n K = 8 := by
  intro K
  induction K using Nat.strong_induction_on with
  | _ K ih =>
    match K with
    | 0 => intro n _; rfl
    | 1 => intro n _; rfl
    | K + 2 =>
      intro n h
      simp only [dispatchCount]
      split
      · rename_i heq
        exfalso
        rcases h with h | h
        · omega
        · push_cast at h; omega
      · refine ih (K + 1) (by omega) n ?_
        rcases h with h | h
        · exact Or.inl h
        · right
          push_cast at h ⊢
          omega

theorem dispatchCount_pos : ∀ (K : ℕ) (n : ℤ), 1 ≤ dispatchCount n K := by
  intro K
  induction K using Nat.strong_induction_on with
  | _ K ih =>
    match K with
    | 0 => intro n; norm_num [dispatchCount]
    | 1 => intro n; norm_num [dispatchCount]
    | K + 2 =>
      intro n
      simp only [dispatchCount]
      split
      · omega
      · exact ih (K + 1) (by omega) n

/-! ### Pairwise log-add lemmas -/

/-- The per-element value computed by the vectorised blocks of logAdd. -/
def vF (ops : Ops α) (a b : α) : α :=
  ops.add (ops.vmax a b) (ops.log1p (ops.exp (ops.sub (ops.vmin a b) (ops.vmax a b))))

/-- The per-element value computed by the scalar tail of logAdd. -/
def sF (ops : Ops α) (a b : α) : α :=
  ops.add (ops.fmax a b) (ops.log1p (ops.exp (ops.sub (ops.fmin a b) (ops.fmax a b))))

theorem zipWith_getElem? {g : α → β → γ} :
    ∀ (as : List α) (bs : List β) (j : ℕ), as.length = bs.length →
      (List.zipWith g as bs)[j]? = (as[j]?).bind fun a => (bs[j]?).map (g a) := by
  intro as
  induction as with
  | nil =>
    intro bs j h
    cases bs with
    | nil => simp
    | cons y ys => simp at h
  | cons x xs ih =>
    intro bs j h
    cases bs with
    | nil => simp at h
    | cons y ys =>
      cases j with
      | zero => simp
      | succ j2 => simpa using ih ys j2 (by simpa using h)

theorem zipWith_zipWith_pair {g : α → α → α} {f1 f2 : α → α → α} :
    ∀ (as bs : List α),
      List.zipWith g (List.zipWith f1 as bs) (List.zipWith f2 as bs)
        = List.zipWith (fun x y => g (f1 x y) (f2 x y)) as bs := by
  intro as
  induction as with
  | nil => intro bs; simp
  | cons x xs ih =>
    intro bs
    cases bs with
    | nil => simp
    | cons y ys => simp [ih]

theorem store_getElem? (out ma : List α) (start w p : ℕ) (hma : ma.length = w)
    (hbound : start + w ≤ out.length) :
    (out.take start ++ ma ++ out.drop (start + w))[p]? =
      if p < start then out[p]? else if p < start + w then ma[p - start]? else out[p]? := by
  have htlen : (out.take start).length = start := by
    rw [List.length_take]
    omega
  rw [List.append_assoc]
  by_cases hp1 : p < start
  · rw [if_pos hp1, List.getElem?_append_left (by omega), List.getElem?_take, if_pos hp1]
  · rw [if_neg hp1, List.getElem?_append_right (by omega), htlen]
    by_cases hp2 : p < start + w
    · rw [if_pos hp2, List.getElem?_append_left (by rw [hma]; omega)]
    · rw [if_neg hp2, List.getElem?_append_right (by rw [hma]; omega), hma,
        List.getElem?_drop]
      congr 1
      omega

theorem store_length (out ma : List α) (start w : ℕ) (hma : ma.length = w)
    (hbound : start + w ≤ out.length) :
    (out.take start ++ ma ++ out.drop (start + w)).length = out.length := by
  simp only [List.length_append, List.length_take, List.length_drop, hma]
  omega

theorem logAdd_blocks (ops : Ops α) (vA vB : List α) (w n : ℕ) (hw : 1 ≤ w)
    (hA : vA.length = n) (hB : vB.length = n) :
    ∀ (c start : ℕ) (out : List α), start + c * w ≤ n → out.length = n →
      (∀ (i : ℕ) (a b : α), vA[i]? = some a → vB[i]? = some b →
        (i < start → out[i]? = some (vF ops a b)) ∧ (start ≤ i → out[i]? = some a)) →
      ∃ res, ofoldM (fun out2 i => do
          let x ← vload out2 i w
          let y ← vload vB i w
          let ma := List.zipWith ops.vmax x y
          let mi := List.zipWith ops.vmin x y
          let ma2 := List.zipWith
            (fun hi lo => ops.add hi (ops.log1p (ops.exp (ops.sub lo hi)))) ma mi
          pure (out2.take i ++ ma2 ++ out2.drop (i + w))) (List.range' start c w) out
            = some res ∧
        res.length = n ∧
        (∀ (i : ℕ) (a b : α), vA[i]? = some a → vB[i]? = some b →
          (i < start + c * w → res[i]? = some (vF ops a b)) ∧
          (start + c * w ≤ i → res[i]? = some a)) := by
  intro c
  induction c with
  | zero =>
    intro start out _ hlen hinv
    exact ⟨out, rfl, hlen, by simpa using hinv⟩
  | succ k ih =>
    intro start out hle hlen hinv
    have hexp : (k + 1) * w = w + k * w := by ring
    have hstep : start + w ≤ n := by omega
    have hAlen : ((vA.drop start).take w).length = w := by
      rw [List.length_take, List.length_drop]
      omega
    have hBlen : ((vB.drop start).take w).length = w := by
      rw [List.length_take, List.length_drop]
      omega
    have houtA : (out.drop start).take w = (vA.drop start).take w := by
      apply List.ext_getElem?
      intro j
      rw [List.getElem?_take, List.getElem?_take, List.getElem?_drop, List.getElem?_drop]
      by_cases hj : j < w
      · rw [if_pos hj, if_pos hj]
        have hjn : start + j < n := by omega
        have ha : vA[start + j]? = some vA[start + j] :=
          List.getElem?_eq_getElem (by omega)
        have hb : vB[start + j]? = some vB[start + j] :=
          List.getElem?_eq_getElem (by omega)
        rw [(hinv (start + j) _ _ ha hb).2 (by omega), ha]
      · rw [if_neg hj, if_neg hj]
    have hload1 : vload out start w = some ((vA.drop start).take w) := by
      rw [vload_eq out w start (by omega), houtA]
    have hload2 : vload vB start w = some ((vB.drop start).take w) := by
      rw [vload_eq vB w start (by omega)]
    have hpair := @zipWith_zipWith_pair α
      (fun hi lo => ops.add hi (ops.log1p (ops.exp (ops.sub lo hi))))
      ops.vmax ops.vmin ((vA.drop start).take w) ((vB.drop start).take w)
    have hmalen : (List.zipWith (fun x y => ops.add (ops.vmax x y)
        (ops.log1p (ops.exp (ops.sub (ops.vmin x y) (ops.vmax x y)))))
        ((vA.drop start).take w) ((vB.drop start).take w)).length = w := by
      rw [List.length_zipWith, hAlen, hBlen, min_self]
    have hout2len : (out.take start ++ List.zipWith (fun x y => ops.add (ops.vmax x y)
        (ops.log1p (ops.exp (ops.sub (ops.vmin x y) (ops.vmax x y)))))
        ((vA.drop start).take w) ((vB.drop start).take w) ++ out.drop (start + w)).length
        = n := by
      rw [store_length _ _ start w hmalen (by omega), hlen]
    have hinv2 : ∀ (i : ℕ) (a b : α), vA[i]? = some a → vB[i]? = some b →
        (i < start + w →
          (out.take start ++ List.zipWith (fun x y => ops.add (ops.vmax x y)
            (ops.log1p (ops.exp (ops.sub (ops.vmin x y) (ops.vmax x y)))))
            ((vA.drop start).take w) ((vB.drop start).take w)
            ++ out.drop (start + w))[i]? = some (vF ops a b)) ∧
        (start + w ≤ i →
          (out.take start ++ List.zipWith (fun x y => ops.add (ops.vmax x y)
            (ops.log1p (ops.exp (ops.sub (ops.vmin x y) (ops.vmax x y)))))
            ((vA.drop start).take w) ((vB.drop start).take w)
            ++ out.drop (start + w))[i]? = some a) := by
      intro i a b ha hb
      rw [store_getElem? out _ start w i hmalen (by omega)]
      constructor
      · intro hi
        by_cases h1 : i < start
        · rw [if_pos h1]
          exact (hinv i a b ha hb).1 h1
        · rw [if_neg h1, if_pos hi]
          rw [zipWith_getElem? _ _ _ (by rw [hAlen, hBlen])]
          have hAj : ((vA.drop start).take w)[i - start]? = some a := by
            rw [List.getElem?_take, if_pos (by omega : i - start < w), List.getElem?_drop,
              show start + (i - start) = i from by omega]
            exact ha
          have hBj : ((vB.drop start).take w)[i - start]? = some b := by
            rw [List.getElem?_take, if_pos (by omega : i - start < w), List.getElem?_drop,
              show start + (i - start) = i from by omega]
            exact hb
          rw [hAj, hBj]
          rfl
      · intro hi
        rw [if_neg (by omega), if_neg (by omega)]
        exact (hinv i a b ha hb).2 (by omega)
    obtain ⟨res, hres, hreslen, hresinv⟩ := ih (start + w) _
      (by omega) hout2len hinv2
    have hstepval : (fun (out2 : List α) (i : ℕ) => do
          let x ← vload out2 i w
          let y ← vload vB i w
          let ma := List.zipWith ops.vmax x y
          let mi := List.zipWith ops.vmin x y
          let ma2 := List.zipWith
            (fun hi lo => ops.add hi (ops.log1p (ops.exp (ops.sub lo hi)))) ma mi
          pure (out2.take i ++ ma2 ++ out2.drop (i + w))) out start
        = some (out.take start ++ List.zipWith (fun x y => ops.add (ops.vmax x y)
            (ops.log1p (ops.exp (ops.sub (ops.vmin x y) (ops.vmax x y)))))
            ((vA.drop start).take w) ((vB.drop start).take w) ++ out.drop (start + w)) := by
      dsimp only
      rw [hload1, hload2]
      simp only [Option.bind_eq_bind, Option.some_bind, Option.pure_def, hpair]
    refine ⟨res, ?_, hreslen, ?_⟩
    · rw [List.range'_succ, ofoldM_cons hstepval]
      exact hres
    · intro i a b ha hb
      have harith : start + w + k * w = start + (k + 1) * w := by ring
      rw [harith] at hresinv
      exact hresinv i a b ha hb

theorem logAdd_tail (ops : Ops α) (vA vB : List α) (n l : ℕ)
    (hA : vA.length = n) (hB : vB.length = n) :
    ∀ (c start : ℕ) (out : List α), l ≤ start → start + c ≤ n → out.length = n →
      (∀ (i : ℕ) (a b : α), vA[i]? = some a → vB[i]? = some b →
        (i < l → out[i]? = some (vF ops a b)) ∧
        (l ≤ i → i < start → out[i]? = some (sF ops a b)) ∧
        (start ≤ i → out[i]? = some a)) →
      ∃ res, ofoldM (fun out2 i => do
          let x ← out2[i]?
          let y ← vB[i]?
          let mma := ops.fmax x y
          let mmi := ops.fmin x y
          pure (out2.set i (ops.add mma (ops.log1p (ops.exp (ops.sub mmi mma))))))
          (List.range' start c) out = some res ∧
        res.length = n ∧
        (∀ (i : ℕ) (a b : α), vA[i]? = some a → vB[i]? = some b →
          (i < l → res[i]? = some (vF ops a b)) ∧
          (l ≤ i → i < start + c → res[i]? = some (sF ops a b)) ∧
          (start + c ≤ i → res[i]? = some a)) := by
  intro c
  induction c with
  | zero =>
    intro start out _ _ hlen hinv
    exact ⟨out, rfl, hlen, by simpa using hinv⟩
  | succ k ih =>
    intro start out hl hle hlen hinv
    have hstart : start < n := by omega
    have ha0 : vA[start]? = some vA[start] := List.getElem?_eq_getElem (by omega)
    have hb0 : vB[start]? = some vB[start] := List.getElem?_eq_getElem (by omega)
    have hout0 : out[start]? = some vA[start] :=
      (hinv start _ _ ha0 hb0).2.2 (le_refl start)
    have hsetlen : (out.set start (ops.add (ops.fmax vA[start] vB[start])
        (ops.log1p (ops.exp (ops.sub (ops.fmin vA[start] vB[start])
          (ops.fmax vA[start] vB[start])))))).length = n := by
      rw [List.length_set, hlen]
    have hinv2 : ∀ (i : ℕ) (a b : α), vA[i]? = some a → vB[i]? = some b →
        (i < l → (out.set start (ops.add (ops.fmax vA[start] vB[start])
            (ops.log1p (ops.exp (ops.sub (ops.fmin vA[start] vB[start])
              (ops.fmax vA[start] vB[start]))))))[i]? = some (vF ops a b)) ∧
        (l ≤ i → i < start + 1 → (out.set start (ops.add (ops.fmax vA[start] vB[start])
            (ops.log1p (ops.exp (ops.sub (ops.fmin vA[start] vB[start])
              (ops.fmax vA[start] vB[start]))))))[i]? = some (sF ops a b)) ∧
        (start + 1 ≤ i → (out.set start (ops.add (ops.fmax vA[start] vB[start])
            (ops.log1p (ops.exp (ops.sub (ops.fmin vA[start] vB[start])
              (ops.fmax vA[start] vB[start]))))))[i]? = some a) := by
      intro i a b ha hb
      refine ⟨?_, ?_, ?_⟩
      · intro hi
        rw [List.getElem?_set_ne (by omega)]
        exact (hinv i a b ha hb).1 hi
      · intro hli hi
        by_cases heq : i = start
        · subst heq
          have haa : a = vA[i] := by
            rw [ha0] at ha
            exact (Option.some.injEq _ _).mp ha.symm
          have hbb : b = vB[i] := by
            rw [hb0] at hb
            exact (Option.some.injEq _ _).mp hb.symm
          rw [List.getElem?_set, if_pos rfl, if_pos (by omega), haa, hbb]
          rfl
        · rw [List.getElem?_set_ne (by omega)]
          exact (hinv i a b ha hb).2.1 hli (by omega)
      · intro hi
        rw [List.getElem?_set_ne (by omega)]
        exact (hinv i a b ha hb).2.2 (by omega)
    obtain ⟨res, hres, hreslen, hresinv⟩ := ih (start + 1) _
      (by omega) (by omega) hsetlen hinv2
    have hstepval : (fun (out2 : List α) (i : ℕ) => do
          let x ← out2[i]?
          let y ← vB[i]?
          let mma := ops.fmax x y
          let mmi := ops.fmin x y
          pure (out2.set i (ops.add mma (ops.log1p (ops.exp (ops.sub mmi mma)))))) out start
        = some (out.set start (ops.add (ops.fmax vA[start] vB[start])
            (ops.log1p (ops.exp (ops.sub (ops.fmin vA[start] vB[start])
              (ops.fmax vA[start] vB[start])))))) := by
      simp only [hout0, hb0, Option.bind_eq_bind, Option.some_bind, Option.pure_def]
    refine ⟨res, ?_, hreslen, ?_⟩
    · rw [List.range'_succ, ofoldM_cons hstepval]
      exact hres
    · intro i a b ha hb
      have harith : start + 1 + k = start + (k + 1) := by ring
      rw [harith] at hresinv
      exact hresinv i a b ha hb

/-- Characterisation of logAdd: on equal-length buffers it succeeds and
computes, for every index, the stabilised pairwise combination, using the
hardware max/min inside the vectorised prefix and fmax/fmin on the scalar
tail. -/
theorem logAdd_spec (ops : Ops α) (w : ℕ) (hw : 1 ≤ w) (vA vB : List α) (n : ℕ)
    (hA : vA.length = n) (hB : vB.length = n) :
    ∃ r, logAdd ops w vA vB n = some r ∧ r.length = n ∧
      ∀ (i : ℕ) (a b : α), vA[i]? = some a → vB[i]? = some b →
        r[i]? = some (if i < n - n % w then vF ops a b else sF ops a b) := by
  have hlt_of : ∀ (v : List α) (i : ℕ) (a : α), v.length = n → v[i]? = some a → i < n := by
    intro v i a hv ha
    by_contra hcon
    rw [List.getElem?_eq_none (by omega)] at ha
    exact Option.noConfusion ha
  unfold logAdd
  rcases le_or_lt w n with hbig | hsmall
  · have hmd := Nat.mod_add_div n w
    have hmod_lt : n % w < w := Nat.mod_lt _ hw
    have hl_le : n - n % w ≤ n := Nat.sub_le _ _
    have hlq : n - n % w = w * (n / w) := by omega
    have hBmul : (n - n % w) / w * w = n - n % w := by
      rw [hlq, Nat.mul_div_cancel_left _ hw, mul_comm]
    have hl_ge : w ≤ n - n % w := by
      have h1 : 1 ≤ n / w := (Nat.one_le_div_iff hw).mpr hbig
      rw [hlq]
      nlinarith
    simp only [Option.bind_eq_bind, Option.pure_def]
    rw [if_pos hl_ge]
    obtain ⟨res1, hres1, hres1len, hres1inv⟩ := logAdd_blocks ops vA vB w n hw hA hB
      ((n - n % w) / w) 0 vA (by rw [Nat.zero_add, hBmul]; exact hl_le) hA
      (fun i a b ha hb => ⟨fun hi => absurd hi (by omega), fun _ => ha⟩)
    rw [Nat.zero_add, hBmul] at hres1inv
    simp only [Option.bind_eq_bind, Option.pure_def] at hres1
    rw [hres1]
    simp only [Option.bind_eq_bind, Option.some_bind]
    by_cases hltail : n - n % w < n
    · rw [if_pos (Or.inr hltail)]
      obtain ⟨res2, hres2, hres2len, hres2inv⟩ := logAdd_tail ops vA vB n (n - n % w) hA hB
        (n - (n - n % w)) (n - n % w) res1 (le_refl _) (by omega) hres1len
        (fun i a b ha hb =>
          ⟨fun hi => (hres1inv i a b ha hb).1 hi,
           fun hli hi => absurd hi (by omega),
           fun hge => (hres1inv i a b ha hb).2 hge⟩)
      have harith : (n - n % w) + (n - (n - n % w)) = n := by omega
      rw [harith] at hres2inv
      simp only [Option.bind_eq_bind, Option.pure_def] at hres2
      rw [hres2]
      refine ⟨res2, rfl, hres2len, ?_⟩
      intro i a b ha hb
      have hi_n : i < n := hlt_of vA i a hA ha
      by_cases hcase : i < n - n % w
      · rw [if_pos hcase]
        exact (hres2inv i a b ha hb).1 hcase
      · rw [if_neg hcase]
        exact (hres2inv i a b ha hb).2.1 (by omega) hi_n
    · rw [if_neg (by omega)]
      refine ⟨res1, rfl, hres1len, ?_⟩
      intro i a b ha hb
      have hi_n : i < n := hlt_of vA i a hA ha
      rw [if_pos (by omega)]
      exact (hres1inv i a b ha hb).1 (by omega)
  · have hmod : n % w = n := Nat.mod_eq_of_lt hsmall
    have hl0 : n - n % w = 0 := by omega
    simp only [Option.bind_eq_bind]
    rw [hl0]
    rw [if_neg (by omega)]
    simp only [Option.pure_def, Option.bind_eq_bind, Option.some_bind]
    rw [if_pos (Or.inl hsmall), Nat.sub_zero]
    obtain ⟨res2, hres2, hres2len, hres2inv⟩ := logAdd_tail ops vA vB n 0 hA hB
      n 0 vA (le_refl 0) (by omega) hA
      (fun i a b ha hb =>
        ⟨fun hi => absurd hi (by omega),
         fun h0 hi0 => absurd hi0 (by omega),
         fun _ => ha⟩)
    simp only [Option.bind_eq_bind, Option.pure_def] at hres2
    rw [hres2]
    refine ⟨res2, rfl, hres2len, ?_⟩
    intro i a b ha hb
    have hi_n : i < n := hlt_of vA i a hA ha
    rw [if_neg (by omega : ¬ i < 0)]
    exact (hres2inv i a b ha hb).2.1 (by omega) (by omega)

/-! ### Instances of the operation-set hypotheses -/

theorem addMonoidOps_real : AddMonoidOps realOps := by
  refine ⟨?_, ?_, ?_⟩
  · intro a b c
    exact add_assoc a b c
  · intro a b
    exact add_comm a b
  · intro a
    exact zero_add a

/-- On exact reals every value is well-behaved and both max primitives are
the mathematical maximum. -/
theorem maxOps_real : MaxOps realOps (fun _ => True) (fun a b => a ≤ b) := by
  refine ⟨?_, ?_, ?_, ?_, ?_, ?_, ?_, ?_⟩
  · intro a _; exact le_refl a
  · intro a b c _ _ _ h1 h2; exact le_trans h1 h2
  · intro a b _ _; exact max_choice a b
  · intro a b _ _; exact le_max_left a b
  · intro a b _ _; exact le_max_right a b
  · intro a b _ _; exact max_choice a b
  · intro a b _ _; exact le_max_left a b
  · intro a b _ _; exact le_max_right a b

namespace FVal

/-- The order on extended values used for the max-reduction reasoning:
minus-infinity below everything, plus-infinity above everything, finite
values ordered as reals, anything else only related to itself. -/
def fle : FVal → FVal → Prop
  | _, pinf => True
  | ninf, _ => True
  | fin a, fin b => a ≤ b
  | x, y => x = y

theorem add_nan_eq : ∀ x : FVal, FVal.add x nan = nan := by
  intro x
  cases x <;> rfl

theorem nan_add_eq : ∀ x : FVal, FVal.add nan x = nan := by
  intro x
  cases x <;> rfl

theorem fle_pinf_eq {m : FVal} (h1 : fle pinf m) (h2 : m ≠ nan) : m = pinf := by
  cases m with
  | pinf => rfl
  | ninf => exact absurd h1 (by simp [fle])
  | fin b => exact absurd h1 (by simp [fle])
  | nan => exact absurd rfl h2

end FVal

theorem addMonoidOps_fval : AddMonoidOps fvalOps := by
  refine ⟨?_, ?_, ?_⟩
  · intro a b c
    show FVal.add (FVal.add a b) c = FVal.add a (FVal.add b c)
    rcases a with a | _ | _ | _ <;> rcases b with b | _ | _ | _ <;>
      rcases c with c | _ | _ | _ <;> simp [FVal.add, add_assoc]
  · intro a b
    show FVal.add a b = FVal.add b a
    rcases a with a | _ | _ | _ <;> rcases b with b | _ | _ | _ <;>
      simp [FVal.add, add_comm]
  · intro a
    show FVal.add (FVal.fin 0) a = a
    rcases a with a | _ | _ | _ <;> simp [FVal.add]

/-- On IEEE extended values, the non-NaN values are well-behaved for the
max reduction: both fmax and vmax select one of their operands and dominate
both in the fle order. -/
theorem maxOps_fval : MaxOps fvalOps (fun a => a ≠ FVal.nan) FVal.fle := by
  refine ⟨?_, ?_, ?_, ?_, ?_, ?_, ?_, ?_⟩
  · intro a ha
    rcases a with a | _ | _ | _ <;> simp [FVal.fle] at ha ⊢
  · intro a b c ha hb hc h1 h2
    rcases a with a | _ | _ | _ <;> rcases b with b | _ | _ | _ <;>
      rcases c with c | _ | _ | _ <;>
      simp_all [FVal.fle] <;> linarith
  · intro a b ha hb
    show FVal.fmax a b = a ∨ FVal.fmax a b = b
    rcases a with a | _ | _ | _ <;> rcases b with b | _ | _ | _ <;>
      simp_all [FVal.fmax]
    exact le_total b a
  · intro a b ha hb
    show FVal.fle a (FVal.fmax a b)
    rcases a with a | _ | _ | _ <;> rcases b with b | _ | _ | _ <;>
      simp_all [FVal.fmax, FVal.fle]
  · intro a b ha hb
    show FVal.fle b (FVal.fmax a b)
    rcases a with a | _ | _ | _ <;> rcases b with b | _ | _ | _ <;>
      simp_all [FVal.fmax, FVal.fle]
  · intro a b ha hb
    show FVal.vmax a b = a ∨ FVal.vmax a b = b
    rcases a with a | _ | _ | _ <;> rcases b with b | _ | _ | _ <;>
      simp_all [FVal.vmax]
    exact le_total b a
  · intro a b ha hb
    show FVal.fle a (FVal.vmax a b)
    rcases a with a | _ | _ | _ <;> rcases b with b | _ | _ | _ <;>
      simp_all [FVal.vmax, FVal.fle]
  · intro a b ha hb
    show FVal.fle b (FVal.vmax a b)
    rcases a with a | _ | _ | _ <;> rcases b with b | _ | _ | _ <;>
      simp_all [FVal.vmax, FVal.fle]

theorem osum_real : ∀ l : List ℝ, osum realOps l = l.sum := by
  intro l
  induction l with
  | nil => rfl
  | cons x xs ih =>
    show x + osum realOps xs = (x :: xs).sum
    rw [ih, List.sum_cons]

theorem osum_fval_nan_of_mem : ∀ l : List FVal, FVal.nan ∈ l → osum fvalOps l = FVal.nan := by
  intro l
  induction l with
  | nil => intro h; simp at h
  | cons x xs ih =>
    intro h
    rcases List.mem_cons.mp h with rfl | h2
    · exact FVal.nan_add_eq _
    · show FVal.add x (osum fvalOps xs) = FVal.nan
      rw [ih h2]
      exact FVal.add_nan_eq x

/-- The exact-arithmetic shift identity: subtracting the maximum before
exponentiating does not change the mathematical log-sum-exp. -/
theorem real_shift (m : ℝ) (v : List ℝ) (hv : v ≠ []) :
    m + Real.log ((v.map fun x => Real.exp (x - m)).sum)
      = Real.log ((v.map Real.exp).sum) := by
  have hpos : 0 < (v.map Real.exp).sum := by
    apply List.sum_pos
    · intro x hx
      rcases List.mem_map.mp hx with ⟨y, _, rfl⟩
      exact Real.exp_pos y
    · simpa using hv
  have hsum : ∀ u : List ℝ, (u.map fun x => Real.exp (x - m)).sum
      = (u.map Real.exp).sum / Real.exp m := by
    intro u
    induction u with
    | nil => simp
    | cons x xs ih =>
      rw [List.map_cons, List.sum_cons, List.map_cons, List.sum_cons, ih, Real.exp_sub]
      ring
  rw [hsum, Real.log_div (ne_of_gt hpos) (Real.exp_ne_zero m), Real.log_exp]
  ring

@[simp] theorem realOps_add (a b : ℝ) : realOps.add a b = a + b := rfl
@[simp] theorem realOps_sub (a b : ℝ) : realOps.sub a b = a - b := rfl
@[simp] theorem realOps_exp (a : ℝ) : realOps.exp a = Real.exp a := rfl
@[simp] theorem realOps_log (a : ℝ) : realOps.log a = Real.log a := rfl
@[simp] theorem realOps_log1p (a : ℝ) : realOps.log1p a = Real.log (1 + a) := rfl
@[simp] theorem realOps_fmax (a b : ℝ) : realOps.fmax a b = max a b := rfl
@[simp] theorem realOps_fmin (a b : ℝ) : realOps.fmin a b = min a b := rfl
@[simp] theorem realOps_vmax (a b : ℝ) : realOps.vmax a b = max a b := rfl
@[simp] theorem realOps_vmin (a b : ℝ) : realOps.vmin a b = min a b := rfl
@[simp] theorem realOps_zero : realOps.zero = 0 := rfl

@[simp] theorem fvalOps_add (a b : FVal) : fvalOps.add a b = FVal.add a b := rfl
@[simp] theorem fvalOps_sub (a b : FVal) : fvalOps.sub a b = FVal.sub a b := rfl
@[simp] theorem fvalOps_exp (a : FVal) : fvalOps.exp a = FVal.exp a := rfl
@[simp] theorem fvalOps_log (a : FVal) : fvalOps.log a = FVal.log a := rfl
@[simp] theorem fvalOps_log1p (a : FVal) : fvalOps.log1p a = FVal.log1p a := rfl
@[simp] theorem fvalOps_fmax (a b : FVal) : fvalOps.fmax a b = FVal.fmax a b := rfl
@[simp] theorem fvalOps_fmin (a b : FVal) : fvalOps.fmin a b = FVal.fmin a b := rfl
@[simp] theorem fvalOps_vmax (a b : FVal) : fvalOps.vmax a b = FVal.vmax a b := rfl
@[simp] theorem fvalOps_vmin (a b : FVal) : fvalOps.vmin a b = FVal.vmin a b := rfl
@[simp] theorem fvalOps_zero : fvalOps.zero = FVal.fin 0 := rfl

theorem map_sum_eq_range (f : ℝ → ℝ) :
    ∀ v : List ℝ, (v.map f).sum = ∑ i ∈ Finset.range v.length, f (v.getD i 0) := by
  intro v
  induction v with
  | nil => simp
  | cons x xs ih =>
    rw [List.map_cons, List.sum_cons, ih, List.length_cons, Finset.sum_range_succ']
    simp only [List.getD_cons_succ, List.getD_cons_zero]
    ring

/-- The exact value of max_element over the reals: the maximum of the
buffer. -/
theorem max_element_real (N w : ℕ) (hN : 1 ≤ N) (hw : 1 ≤ w) (x : ℝ) (xs : List ℝ) :
    ∃ m, max_element realOps N w (x :: xs) = some m ∧ m ∈ x :: xs ∧ ∀ a ∈ x :: xs, a ≤ m := by
  obtain ⟨m, hm, hmem, hdom⟩ := max_element_spec maxOps_real N w hN hw x xs (fun a _ => trivial)
  exact ⟨m, hm, hmem, hdom⟩

/-- The exact value of logSum over the reals: the true log-sum-exp,
independently of the accumulator count and vector width. -/
theorem logSum_real_val (N w : ℕ) (hN : 1 ≤ N) (hw : 1 ≤ w) (x : ℝ) (xs : List ℝ) :
    logSum realOps N w (x :: xs) = some (Real.log (((x :: xs).map Real.exp).sum)) := by
  obtain ⟨m, hm, hmem, hdom⟩ := max_element_real N w hN hw x xs
  have hls := logSum_spec addMonoidOps_real N w hN hw (x :: xs) (by simp) m hm
  rw [hls]
  simp only [realOps_add, realOps_log, realOps_exp, realOps_sub]
  rw [osum_real]
  rw [real_shift m (x :: xs) (by simp)]

/-- The exact value of the logSumExp entry point over the reals, for every
accumulator request. -/
theorem logSumExp_real_val (w : ℕ) (hw : 1 ≤ w) (x : ℝ) (xs : List ℝ) (acc : ℤ) :
    logSumExp realOps w (x :: xs) acc = some (Real.log (((x :: xs).map Real.exp).sum)) := by
  unfold logSumExp
  rw [logSumN_eq_dispatch]
  exact logSum_real_val _ w (dispatchCount_pos 12 _) hw x xs

theorem list_eq_singleton {r : List β} {v : β} (hlen : r.length = 1) (h0 : r[0]? = some v) :
    r = [v] := by
  cases r with
  | nil => simp at hlen
  | cons y ys =>
    cases ys with
    | nil =>
      simp only [List.getElem?_cons_zero, Option.some.injEq] at h0
      rw [h0]
    | cons z zs => simp at hlen

/-- In exact arithmetic the pairwise formula hi + log1p(exp(lo - hi))
equals log(exp x + exp y). -/
theorem pairwise_formula (x y : ℝ) :
    max x y + Real.log (1 + Real.exp (min x y - max x y))
      = Real.log (Real.exp x + Real.exp y) := by
  have key : ∀ p q : ℝ, q ≤ p → p + Real.log (1 + Real.exp (q - p))
      = Real.log (Real.exp p + Real.exp q) := by
    intro p q hqp
    have hpos : (0 : ℝ) < 1 + Real.exp (q - p) := by positivity
    have hmul : Real.exp p * (1 + Real.exp (q - p)) = Real.exp p + Real.exp q := by
      rw [Real.exp_sub]
      field_simp
    calc p + Real.log (1 + Real.exp (q - p))
        = Real.log (Real.exp p) + Real.log (1 + Real.exp (q - p)) := by rw [Real.log_exp]
      _ = Real.log (Real.exp p * (1 + Real.exp (q - p))) :=
          (Real.log_mul (Real.exp_ne_zero p) (ne_of_gt hpos)).symm
      _ = Real.log (Real.exp p + Real.exp q) := by rw [hmul]
  rcases le_total x y with h | h
  · rw [max_eq_right h, min_eq_left h, key y x h, add_comm (Real.exp y)]
  · rw [max_eq_left h, min_eq_right h, key x y h]

/-- Behaviour of logAddExp over the reals on equal-length inputs: success,
frame preservation of both arguments, and the pointwise stabilised
combination. -/
theorem logAddExp_real_spec (w : ℕ) (hw : 1 ≤ w) (a b : List ℝ)
    (hab : a.length = b.length) :
    ∃ r : List ℝ, logAddExp realOps w a b = some (r.map some, a, b) ∧ r.length = a.length ∧
      ∀ (i : ℕ) (ai bi : ℝ), a[i]? = some ai → b[i]? = some bi →
        r[i]? = some (max ai bi + Real.log (1 + Real.exp (min ai bi - max ai bi))) := by
  obtain ⟨r, hr, hrlen, hrp⟩ := logAdd_spec realOps w hw a b a.length rfl hab.symm
  refine ⟨r, ?_, hrlen, ?_⟩
  · unfold logAddExp
    rw [if_neg (by omega)]
    simp only [Option.bind_eq_bind]
    rw [hr]
    rfl
  · intro i ai bi hai hbi
    have h0 := hrp i ai bi hai hbi
    have hform : (if i < a.length - a.length % w then vF realOps ai bi else sF realOps ai bi)
        = max ai bi + Real.log (1 + Real.exp (min ai bi - max ai bi)) := by
      unfold vF sF
      simp only [realOps_add, realOps_log1p, realOps_exp, realOps_sub, realOps_vmax,
        realOps_vmin, realOps_fmax, realOps_fmin, ite_self]
    rw [hform] at h0
    exact h0

theorem FVal.nan_sub : ∀ m : FVal, FVal.sub FVal.nan m = FVal.nan := by
  intro m
  cases m <;> rfl

theorem FVal.log_nan : FVal.log FVal.nan = FVal.nan := rfl

theorem FVal.exp_nan : FVal.exp FVal.nan = FVal.nan := rfl

theorem FVal.sub_ninf_ninf : FVal.sub FVal.ninf FVal.ninf = FVal.nan := rfl

theorem FVal.sub_pinf_pinf : FVal.sub FVal.pinf FVal.pinf = FVal.nan := rfl

/-- If any shifted-exponential term of the sum is NaN, logSum returns NaN:
the NaN is absorbed by the accumulator additions, the horizontal add, the
logarithm and the final addition of the maximum. -/
theorem logSum_fval_nan (N w : ℕ) (hN : 1 ≤ N) (hw : 1 ≤ w) (x : FVal) (xs : List FVal)
    (m : FVal) (hm : max_element fvalOps N w (x :: xs) = some m)
    (hterm : FVal.nan ∈ (x :: xs).map fun t => FVal.exp (FVal.sub t m)) :
    logSum fvalOps N w (x :: xs) = some FVal.nan := by
  have hls := logSum_spec addMonoidOps_fval N w hN hw (x :: xs) (by simp) m hm
  simp only [fvalOps_add, fvalOps_log, fvalOps_exp, fvalOps_sub] at hls
  rw [hls, osum_fval_nan_of_mem _ hterm, FVal.log_nan, FVal.add_nan_eq]

/-- logAddExp on a pair of single-element IEEE buffers, when the
vectorised and the scalar formulas agree on the pair. -/
theorem logAddExp_fval_single (w : ℕ) (hw : 1 ≤ w) (p q v2 : FVal)
    (h1 : vF fvalOps p q = v2) (h2 : sF fvalOps p q = v2) :
    logAddExp fvalOps w [p] [q] = some ([some v2], [p], [q]) := by
  unfold logAddExp
  rw [if_neg (by simp)]
  simp only [Option.bind_eq_bind]
  obtain ⟨r, hr, hrlen, hrp⟩ := logAdd_spec fvalOps w hw [p] [q] 1 rfl rfl
  have h0 := hrp 0 p q (by simp) (by simp)
  rw [h1, h2, ite_self] at h0
  have hreq : r = [v2] := list_eq_singleton hrlen h0
  rw [show ([p] : List FVal).length = 1 from rfl, hr]
  simp [hreq]

/-! ### The claims -/

/-- Claim C1: for every non-empty real buffer (exact arithmetic), any
accumulator count N at least 1 and any vector width w at least 1, logSum
returns m + log(sum over 0 <= i < n of exp(x_i - m)) where m is the value
returned by max_element, and in exact arithmetic this equals
log(sum of exp(x_i)).  The equality holds uniformly, covering both the
vectorised path with scalar tail and the n < N*w scalar-only path. -/
theorem C1_logSum_shifted_sum (N w : ℕ) (hN : 1 ≤ N) (hw : 1 ≤ w) (x : ℝ) (xs : List ℝ) :
    ∃ m, max_element realOps N w (x :: xs) = some m ∧
      logSum realOps N w (x :: xs)
        = some (m + Real.log (∑ i ∈ Finset.range (x :: xs).length,
            Real.exp ((x :: xs).getD i 0 - m))) ∧
      m + Real.log (∑ i ∈ Finset.range (x :: xs).length, Real.exp ((x :: xs).getD i 0 - m))
        = Real.log (∑ i ∈ Finset.range (x :: xs).length, Real.exp ((x :: xs).getD i 0)) := by
  obtain ⟨m, hm, hmem, hdom⟩ := max_element_real N w hN hw x xs
  have hls := logSum_spec addMonoidOps_real N w hN hw (x :: xs) (by simp) m hm
  simp only [realOps_add, realOps_log, realOps_exp, realOps_sub] at hls
  rw [osum_real] at hls
  rw [map_sum_eq_range (fun t => Real.exp (t - m)) (x :: xs)] at hls
  refine ⟨m, hm, hls, ?_⟩
  rw [← map_sum_eq_range (fun t => Real.exp (t - m)) (x :: xs),
    ← map_sum_eq_range Real.exp (x :: xs)]
  exact real_shift m (x :: xs) (by simp)

theorem C1_witness :
    ∃ m, max_element realOps 8 4 ((1 : ℝ) :: [2, 3]) = some m ∧
      logSum realOps 8 4 ((1 : ℝ) :: [2, 3])
        = some (m + Real.log (∑ i ∈ Finset.range ((1 : ℝ) :: [2, 3]).length,
            Real.exp (((1 : ℝ) :: [2, 3]).getD i 0 - m))) ∧
      m + Real.log (∑ i ∈ Finset.range ((1 : ℝ) :: [2, 3]).length,
          Real.exp (((1 : ℝ) :: [2, 3]).getD i 0 - m))
        = Real.log (∑ i ∈ Finset.range ((1 : ℝ) :: [2, 3]).length,
            Real.exp (((1 : ℝ) :: [2, 3]).getD i 0)) :=
  C1_logSum_shifted_sum 8 4 (by decide) (by decide) 1 [2, 3]

/-- Claim C2: for every non-empty real buffer with (vacuously) no NaN
values, max_element returns the maximum of the buffer: a member of the
buffer dominating every element, equal to the scalar linear-scan
reference, and for a one-element buffer the single element is returned
directly. -/
theorem C2_max_element_correct (N w : ℕ) (hN : 1 ≤ N) (hw : 1 ≤ w) (x : ℝ) (xs : List ℝ) :
    ∃ m, max_element realOps N w (x :: xs) = some m ∧ m ∈ x :: xs ∧ (∀ a ∈ x :: xs, a ≤ m) ∧
      max_element_scalar realOps (x :: xs) = some m ∧
      ∀ y : ℝ, max_element realOps N w [y] = some y := by
  obtain ⟨m, hm, hmem, hdom⟩ := max_element_real N w hN hw x xs
  refine ⟨m, hm, hmem, hdom, ?_, ?_⟩
  · rw [max_element_scalar_run]
    obtain ⟨hv, hmem2, hle2, hdom2⟩ := foldl_fmax_spec maxOps_real (x :: xs)
      (fun a _ => trivial) xs x (List.mem_cons_self x xs)
      (fun b hb => List.mem_cons_of_mem x hb)
    have h1 : xs.foldl realOps.fmax x ≤ m := hdom _ hmem2
    have h2 : m ≤ xs.foldl realOps.fmax x := by
      rcases List.mem_cons.mp hmem with rfl | h
      · exact hle2
      · exact hdom2 m h
    rw [le_antisymm h1 h2]
  · intro y
    simp [max_element]

theorem C2_witness :
    ∃ m, max_element realOps 8 4 ((3 : ℝ) :: [1, 4, 1, 5]) = some m ∧
      m ∈ (3 : ℝ) :: [1, 4, 1, 5] ∧ (∀ a ∈ (3 : ℝ) :: [1, 4, 1, 5], a ≤ m) ∧
      max_element_scalar realOps ((3 : ℝ) :: [1, 4, 1, 5]) = some m ∧
      ∀ y : ℝ, max_element realOps 8 4 [y] = some y :=
  C2_max_element_correct 8 4 (by decide) (by decide) 3 [1, 4, 1, 5]

/-- Claim C3 (amended): logSumN dispatches to the compiled specialisation
selected by dispatchCount; for requested counts 2..12 that is exactly the
requested count, but for requestedN = 1 and for every count outside [1,12]
the default 8-accumulator specialisation is used, because the _int 1 base
overload of the dispatch returns the default logSum. -/
theorem C3_dispatch_amended (ops : Ops α) (w : ℕ) (logV : List α) (n : ℤ) :
    logSumN ops w logV n 12 = logSum ops (dispatchCount n 12) w logV ∧
    (2 ≤ n → n ≤ 12 → dispatchCount n 12 = n.toNat) ∧
    ((n ≤ 1 ∨ 12 < n) → dispatchCount n 12 = 8) := by
  refine ⟨logSumN_eq_dispatch ops w logV n 12, ?_, ?_⟩
  · intro h2 h12
    exact dispatchCount_in_range 12 n h2 (by exact_mod_cast h12)
  · intro h
    refine dispatchCount_default 12 n ?_
    rcases h with h | h
    · exact Or.inl h
    · right
      exact_mod_cast h

/-- Claim C3 counterexample: for requestedN = 1 the dispatch selects the
default 8-accumulator specialisation, not the 1-accumulator one, so the
claim that every requestedN in [1,12] is matched exactly is false at 1. -/
theorem C3_counterexample :
    dispatchCount 1 12 = 8 ∧ dispatchCount 1 12 ≠ 1 ∧
      logSumN realOps 4 [(0 : ℝ)] 1 12 = logSum realOps 8 4 [(0 : ℝ)] := by
  refine ⟨by decide, by decide, ?_⟩
  rw [logSumN_eq_dispatch, show dispatchCount 1 12 = 8 from by decide]

theorem C3_witness :
    logSumN realOps 4 [(0 : ℝ)] 5 12 = logSum realOps (dispatchCount 5 12) 4 [(0 : ℝ)] ∧
      dispatchCount 5 12 = (5 : ℤ).toNat ∧ dispatchCount 0 12 = 8 :=
  ⟨(C3_dispatch_amended realOps 4 [(0 : ℝ)] 5).1,
   (C3_dispatch_amended realOps 4 [(0 : ℝ)] 5).2.1 (by decide) (by decide),
   (C3_dispatch_amended realOps 4 [(0 : ℝ)] 0).2.2 (by decide)⟩

/-- Claim C4 (amended): for every NON-EMPTY buffer, every accumulator count
and vector width at least 1, max_element and logSum never perform an
out-of-range read: in the embedding where such a read returns none, both
reductions return some.  (At n = 0 the claim fails: see the
counterexample.) -/
theorem C4_reads_in_bounds_amended (N w : ℕ) (hN : 1 ≤ N) (hw : 1 ≤ w) (x : ℝ)
    (xs : List ℝ) :
    (max_element realOps N w (x :: xs)).isSome ∧ (logSum realOps N w (x :: xs)).isSome := by
  obtain ⟨m, hm, _, _⟩ := max_element_real N w hN hw x xs
  refine ⟨by rw [hm]; rfl, ?_⟩
  rw [logSum_real_val N w hN hw x xs]
  rfl

/-- Claim C4 counterexample: at n = 0 both reductions read index 0 of the
empty buffer (the scalar fallback executes m = v[0] unguarded), so the
out-of-range branch is reached and the embedding returns none. -/
theorem C4_counterexample :
    max_element realOps 8 4 ([] : List ℝ) = none ∧ logSum realOps 8 4 ([] : List ℝ) = none :=
  ⟨rfl, rfl⟩

theorem C4_witness :
    (max_element realOps 8 4 ((1 : ℝ) :: [2])).isSome ∧
      (logSum realOps 8 4 ((1 : ℝ) :: [2])).isSome :=
  C4_reads_in_bounds_amended 8 4 (by decide) (by decide) 1 [2]

/-- Claim C5: for a fixed non-empty input the mathematical value of
logSumExp does not depend on the accumulators argument: all requests give
the same (defined) result, requests above 12 are capped to the
12-accumulator kernel, and requests below 1 fall through the dispatch to
the default 8-accumulator kernel; in particular accumulators = 20 never
fails and equals the in-range results. -/
theorem C5_accumulators_immaterial (w : ℕ) (hw : 1 ≤ w) (x : ℝ) (xs : List ℝ) :
    (∀ acc1 acc2 : ℤ,
      logSumExp realOps w (x :: xs) acc1 = logSumExp realOps w (x :: xs) acc2) ∧
    (∀ acc : ℤ, (logSumExp realOps w (x :: xs) acc).isSome) ∧
    (∀ acc : ℤ, 12 < acc → logSumExp realOps w (x :: xs) acc
      = logSum realOps 12 w (x :: xs)) ∧
    (∀ acc : ℤ, acc < 1 → logSumExp realOps w (x :: xs) acc
      = logSum realOps 8 w (x :: xs)) := by
  refine ⟨?_, ?_, ?_, ?_⟩
  · intro a1 a2
    rw [logSumExp_real_val w hw x xs a1, logSumExp_real_val w hw x xs a2]
  · intro acc
    rw [logSumExp_real_val w hw x xs acc]
    rfl
  · intro acc hacc
    simp only [logSumExp]
    rw [if_pos hacc, logSumN_eq_dispatch, show dispatchCount 12 12 = 12 from by decide]
  · intro acc hacc
    simp only [logSumExp]
    rw [if_neg (by omega), logSumN_eq_dispatch,
      dispatchCount_default 12 acc (Or.inl (by omega))]

theorem C5_witness :
    logSumExp realOps 4 ((1 : ℝ) :: [2]) 3 = logSumExp realOps 4 ((1 : ℝ) :: [2]) 7 ∧
      (logSumExp realOps 4 ((1 : ℝ) :: [2]) 5).isSome ∧
      logSumExp realOps 4 ((1 : ℝ) :: [2]) 20 = logSum realOps 12 4 ((1 : ℝ) :: [2]) ∧
      logSumExp realOps 4 ((1 : ℝ) :: [2]) 0 = logSum realOps 8 4 ((1 : ℝ) :: [2]) :=
  ⟨(C5_accumulators_immaterial 4 (by decide) 1 [2]).1 3 7,
   (C5_accumulators_immaterial 4 (by decide) 1 [2]).2.1 5,
   (C5_accumulators_immaterial 4 (by decide) 1 [2]).2.2.1 20 (by decide),
   (C5_accumulators_immaterial 4 (by decide) 1 [2]).2.2.2 0 (by decide)⟩

/-- Claim C6: colLogSumExps returns nCols results; the j-th one is exactly
logSumExp applied to the contiguous sub-buffer of length nRows starting at
offset j*nRows (column j), with no cross-column state; and for a non-empty
column that value is the exact log-sum-exp of that column alone. -/
theorem C6_columns_independent (w : ℕ) (mat : List ℝ) (nRow nCol : ℕ) (acc : ℤ) :
    (colLogSumExps realOps w mat nRow nCol acc).length = nCol ∧
    (∀ j, j < nCol → (colLogSumExps realOps w mat nRow nCol acc)[j]?
      = some (logSumExp realOps w ((mat.drop (j * nRow)).take nRow) acc)) ∧
    (1 ≤ w → ∀ (j : ℕ) (y : ℝ) (ys : List ℝ), j < nCol →
      (mat.drop (j * nRow)).take nRow = y :: ys →
      logSumExp realOps w ((mat.drop (j * nRow)).take nRow) acc
        = some (Real.log ((((mat.drop (j * nRow)).take nRow).map Real.exp).sum))) := by
  refine ⟨by simp [colLogSumExps], ?_, ?_⟩
  · intro j hj
    simp only [colLogSumExps, logSumExp, List.getElem?_map]
    rw [List.getElem?_range hj]
    rfl
  · intro hw j y ys hj hcol
    rw [hcol]
    exact logSumExp_real_val w hw y ys acc

theorem C6_witness :
    (colLogSumExps realOps 4 [(1 : ℝ), 2] 1 2 5).length = 2 ∧
      (colLogSumExps realOps 4 [(1 : ℝ), 2] 1 2 5)[1]?
        = some (logSumExp realOps 4 ((([(1 : ℝ), 2]).drop (1 * 1)).take 1) 5) ∧
      logSumExp realOps 4 ((([(1 : ℝ), 2]).drop (1 * 1)).take 1) 5
        = some (Real.log ((((([(1 : ℝ), 2]).drop (1 * 1)).take 1).map Real.exp).sum)) :=
  ⟨(C6_columns_independent 4 [(1 : ℝ), 2] 1 2 5).1,
   (C6_columns_independent 4 [(1 : ℝ), 2] 1 2 5).2.1 1 (by decide),
   (C6_columns_independent 4 [(1 : ℝ), 2] 1 2 5).2.2 (by decide) 1 2 [] (by decide) rfl⟩

/-- Claim C7: on equal-length real buffers, every element of the logAddExp
result equals hi + log1p(exp(lo - hi)) for hi the larger and lo the smaller
of the pair (the same formula on the vectorised blocks and the scalar
tail), which in exact arithmetic equals log(exp a_i + exp b_i) and the
value of logSumExp on the two-element buffer [a_i, b_i]. -/
theorem C7_logAddExp_pointwise (w : ℕ) (hw : 1 ≤ w) (a b : List ℝ)
    (hab : a.length = b.length) :
    ∃ r : List ℝ, logAddExp realOps w a b = some (r.map some, a, b) ∧
      r.length = a.length ∧
      ∀ (i : ℕ) (ai bi : ℝ), a[i]? = some ai → b[i]? = some bi →
        r[i]? = some (max ai bi + Real.log (1 + Real.exp (min ai bi - max ai bi))) ∧
        max ai bi + Real.log (1 + Real.exp (min ai bi - max ai bi))
          = Real.log (Real.exp ai + Real.exp bi) ∧
        ∀ acc : ℤ, logSumExp realOps w [ai, bi] acc
          = some (Real.log (Real.exp ai + Real.exp bi)) := by
  obtain ⟨r, hr, hrlen, hrp⟩ := logAddExp_real_spec w hw a b hab
  refine ⟨r, hr, hrlen, ?_⟩
  intro i ai bi hai hbi
  refine ⟨hrp i ai bi hai hbi, pairwise_formula ai bi, ?_⟩
  intro acc
  rw [logSumExp_real_val w hw ai [bi] acc]
  have hs : (([ai, bi] : List ℝ).map Real.exp).sum = Real.exp ai + Real.exp bi := by
    simp
  rw [hs]

theorem C7_witness :
    ∃ r : List ℝ, logAddExp realOps 4 [(0 : ℝ)] [(1 : ℝ)] = some (r.map some, [0], [1]) ∧
      r.length = ([(0 : ℝ)] : List ℝ).length ∧
      ∀ (i : ℕ) (ai bi : ℝ), ([(0 : ℝ)] : List ℝ)[i]? = some ai →
        ([(1 : ℝ)] : List ℝ)[i]? = some bi →
        r[i]? = some (max ai bi + Real.log (1 + Real.exp (min ai bi - max ai bi))) ∧
        max ai bi + Real.log (1 + Real.exp (min ai bi - max ai bi))
          = Real.log (Real.exp ai + Real.exp bi) ∧
        ∀ acc : ℤ, logSumExp realOps 4 [ai, bi] acc
          = some (Real.log (Real.exp ai + Real.exp bi)) :=
  C7_logAddExp_pointwise 4 (by decide) [(0 : ℝ)] [(1 : ℝ)] rfl

/-- Claim C8: logAddExp returns the length-1 missing-value sentinel exactly
when the input lengths differ; the mismatch is signalled by that return
value (never by aborting: the result is always defined), and on equal
lengths the result is the elementwise combination of full length. -/
theorem C8_logAddExp_sentinel (w : ℕ) (hw : 1 ≤ w) (a b : List ℝ) :
    ((logAddExp realOps w a b = some ([none], a, b)) ↔ a.length ≠ b.length) ∧
    (a.length = b.length → ∃ r : List ℝ,
      logAddExp realOps w a b = some (r.map some, a, b) ∧ r.length = a.length ∧
      ∀ (i : ℕ) (ai bi : ℝ), a[i]? = some ai → b[i]? = some bi →
        r[i]? = some (max ai bi + Real.log (1 + Real.exp (min ai bi - max ai bi)))) := by
  constructor
  · constructor
    · intro heq
      intro hcon
      obtain ⟨r, hr, hrlen, _⟩ := logAddExp_real_spec w hw a b hcon
      rw [hr] at heq
      have hpair := (Option.some.injEq _ _).mp heq
      have hmap : r.map some = [none] := congrArg Prod.fst hpair
      cases r with
      | nil => simp at hmap
      | cons z zs =>
        cases zs with
        | nil => simp at hmap
        | cons u us => simp at hmap
    · intro hne
      unfold logAddExp
      rw [if_pos hne]
  · intro heq
    exact logAddExp_real_spec w hw a b heq

theorem C8_witness :
    ((logAddExp realOps 4 [(1 : ℝ), 2] [(1 : ℝ)] = some ([none], [1, 2], [1]))
      ↔ ([(1 : ℝ), 2] : List ℝ).length ≠ ([(1 : ℝ)] : List ℝ).length) ∧
    (([(1 : ℝ), 2] : List ℝ).length = ([(1 : ℝ)] : List ℝ).length → ∃ r : List ℝ,
      logAddExp realOps 4 [(1 : ℝ), 2] [(1 : ℝ)] = some (r.map some, [1, 2], [1]) ∧
      r.length = ([(1 : ℝ), 2] : List ℝ).length ∧
      ∀ (i : ℕ) (ai bi : ℝ), ([(1 : ℝ), 2] : List ℝ)[i]? = some ai →
        ([(1 : ℝ)] : List ℝ)[i]? = some bi →
        r[i]? = some (max ai bi + Real.log (1 + Real.exp (min ai bi - max ai bi)))) :=
  C8_logAddExp_sentinel 4 (by decide) [(1 : ℝ), 2] [(1 : ℝ)]

/-- Claim C10: logAddExp never modifies either input buffer: in every case,
equal lengths (where the kernel mutates only the fresh clone of the first
input) or mismatched lengths, the final contents of both argument buffers
equal their initial contents. -/
theorem C10_inputs_unmodified (w : ℕ) (hw : 1 ≤ w) (a b : List ℝ) :
    ∃ out, logAddExp realOps w a b = some (out, a, b) := by
  by_cases h : a.length = b.length
  · obtain ⟨r, hr, _, _⟩ := logAddExp_real_spec w hw a b h
    exact ⟨r.map some, hr⟩
  · refine ⟨[none], ?_⟩
    unfold logAddExp
    rw [if_pos h]

theorem fval_log1p_zero : FVal.log1p (FVal.fin 0) = FVal.fin 0 := by
  have h : FVal.log1p (FVal.fin 0)
      = if (-1 : ℝ) < 0 then FVal.fin (Real.log (1 + 0))
        else if (0 : ℝ) = -1 then FVal.ninf else FVal.nan := rfl
  rw [h, if_pos (by norm_num : (-1 : ℝ) < 0)]
  norm_num

theorem fval_vF_ninf_one : vF fvalOps FVal.ninf (FVal.fin 1) = FVal.fin 1 := by
  unfold vF
  simp only [fvalOps_add, fvalOps_vmax, fvalOps_vmin, fvalOps_log1p, fvalOps_exp, fvalOps_sub]
  rw [show FVal.vmax FVal.ninf (FVal.fin 1) = FVal.fin 1 from rfl,
    show FVal.vmin FVal.ninf (FVal.fin 1) = FVal.ninf from rfl,
    show FVal.sub FVal.ninf (FVal.fin 1) = FVal.ninf from rfl,
    show FVal.exp FVal.ninf = FVal.fin 0 from rfl, fval_log1p_zero,
    show FVal.add (FVal.fin 1) (FVal.fin 0) = FVal.fin (1 + 0) from rfl]
  norm_num

theorem fval_sF_ninf_one : sF fvalOps FVal.ninf (FVal.fin 1) = FVal.fin 1 := by
  unfold sF
  simp only [fvalOps_add, fvalOps_fmax, fvalOps_fmin, fvalOps_log1p, fvalOps_exp, fvalOps_sub]
  rw [show FVal.fmax FVal.ninf (FVal.fin 1) = FVal.fin 1 from rfl,
    show FVal.fmin FVal.ninf (FVal.fin 1) = FVal.ninf from rfl,
    show FVal.sub FVal.ninf (FVal.fin 1) = FVal.ninf from rfl,
    show FVal.exp FVal.ninf = FVal.fin 0 from rfl, fval_log1p_zero,
    show FVal.add (FVal.fin 1) (FVal.fin 0) = FVal.fin (1 + 0) from rfl]
  norm_num

theorem fval_vF_pinf_one : vF fvalOps FVal.pinf (FVal.fin 1) = FVal.pinf := by
  unfold vF
  simp only [fvalOps_add, fvalOps_vmax, fvalOps_vmin, fvalOps_log1p, fvalOps_exp, fvalOps_sub]
  rw [show FVal.vmax FVal.pinf (FVal.fin 1) = FVal.pinf from rfl,
    show FVal.vmin FVal.pinf (FVal.fin 1) = FVal.fin 1 from rfl,
    show FVal.sub (FVal.fin 1) FVal.pinf = FVal.ninf from rfl,
    show FVal.exp FVal.ninf = FVal.fin 0 from rfl, fval_log1p_zero]
  rfl

theorem fval_sF_pinf_one : sF fvalOps FVal.pinf (FVal.fin 1) = FVal.pinf := by
  unfold sF
  simp only [fvalOps_add, fvalOps_fmax, fvalOps_fmin, fvalOps_log1p, fvalOps_exp, fvalOps_sub]
  rw [show FVal.fmax FVal.pinf (FVal.fin 1) = FVal.pinf from rfl,
    show FVal.fmin FVal.pinf (FVal.fin 1) = FVal.fin 1 from rfl,
    show FVal.sub (FVal.fin 1) FVal.pinf = FVal.ninf from rfl,
    show FVal.exp FVal.ninf = FVal.fin 0 from rfl, fval_log1p_zero]
  rfl

/-- Claim C9 (amended): degenerate infinite inputs propagate through the
shift-and-exponentiate strategy rather than being special-cased: logSum of
an all minus-infinity buffer is NaN (not minus-infinity), and logSum of any
buffer containing plus-infinity is NaN; for the pairwise operation,
logAddExp([-inf],[1]) = [1] and logAddExp([-inf],[-inf]) = [NaN], while
logAddExp([+inf],[1]) = [+inf] (not NaN as originally claimed), because the
pairwise formula subtracts the smaller operand from the larger one and
never forms inf - inf on that pair. -/
theorem C9_special_values (N w n : ℕ) (hN : 1 ≤ N) (hw : 1 ≤ w) (hn : 1 ≤ n)
    (v : List FVal) (hpinf : FVal.pinf ∈ v) :
    logSum fvalOps N w (List.replicate n FVal.ninf) = some FVal.nan ∧
    logSum fvalOps N w v = some FVal.nan ∧
    logAddExp fvalOps w [FVal.ninf] [FVal.fin 1]
      = some ([some (FVal.fin 1)], [FVal.ninf], [FVal.fin 1]) ∧
    logAddExp fvalOps w [FVal.ninf] [FVal.ninf]
      = some ([some FVal.nan], [FVal.ninf], [FVal.ninf]) ∧
    logAddExp fvalOps w [FVal.pinf] [FVal.fin 1]
      = some ([some FVal.pinf], [FVal.pinf], [FVal.fin 1]) := by
  refine ⟨?_, ?_, ?_, ?_, ?_⟩
  · obtain ⟨k, rfl⟩ : ∃ k, n = k + 1 := ⟨n - 1, by omega⟩
    rw [List.replicate_succ]
    have hS : ∀ a ∈ FVal.ninf :: List.replicate k FVal.ninf, a ≠ FVal.nan := by
      intro a ha
      rcases List.mem_cons.mp ha with rfl | hrep
      · simp
      · rw [List.eq_of_mem_replicate hrep]
        simp
    obtain ⟨m, hm, hmem, _⟩ := max_element_spec maxOps_fval N w hN hw _ _ hS
    have hmeq : m = FVal.ninf := by
      rcases List.mem_cons.mp hmem with rfl | hrep
      · rfl
      · exact List.eq_of_mem_replicate hrep
    subst hmeq
    apply logSum_fval_nan N w hN hw _ _ _ hm
    rw [List.map_cons, show FVal.exp (FVal.sub FVal.ninf FVal.ninf) = FVal.nan from rfl]
    exact List.mem_cons_self _ _
  · cases v with
    | nil => simp at hpinf
    | cons x xs =>
      by_cases hnan : FVal.nan ∈ x :: xs
      · have hm : max_element fvalOps N w (x :: xs) = some (maxRun fvalOps N w x xs) :=
          max_element_run N w hN hw x xs
        apply logSum_fval_nan N w hN hw x xs _ hm
        exact List.mem_map.mpr ⟨FVal.nan, hnan, by rw [FVal.nan_sub, FVal.exp_nan]⟩
      · have hS : ∀ a ∈ x :: xs, a ≠ FVal.nan := fun a ha h => hnan (h ▸ ha)
        obtain ⟨m, hm, hmem, hdom⟩ := max_element_spec maxOps_fval N w hN hw x xs hS
        have hmp : m = FVal.pinf := FVal.fle_pinf_eq (hdom _ hpinf) (hS m hmem)
        subst hmp
        apply logSum_fval_nan N w hN hw x xs _ hm
        exact List.mem_map.mpr ⟨FVal.pinf, hpinf,
          by rw [FVal.sub_pinf_pinf, FVal.exp_nan]⟩
  · exact logAddExp_fval_single w hw _ _ _ fval_vF_ninf_one fval_sF_ninf_one
  · exact logAddExp_fval_single w hw _ _ _ rfl rfl
  · exact logAddExp_fval_single w hw _ _ _ fval_vF_pinf_one fval_sF_pinf_one

/-- Claim C9 counterexample: logAddExp on ([+inf], [1.0]) returns [+inf],
not [NaN] as the claim states: the kernel computes
inf + log1p(exp(1 - inf)) = inf + log1p 0 = inf. -/
theorem C9_counterexample :
    logAddExp fvalOps 2 [FVal.pinf] [FVal.fin 1]
      = some ([some FVal.pinf], [FVal.pinf], [FVal.fin 1]) ∧ FVal.pinf ≠ FVal.nan :=
  ⟨logAddExp_fval_single 2 (by decide) _ _ _ fval_vF_pinf_one fval_sF_pinf_one, by simp⟩

theorem C9_witness :
    logSum fvalOps 8 2 (List.replicate 3 FVal.ninf) = some FVal.nan ∧
    logSum fvalOps 8 2 [FVal.fin 1, FVal.pinf] = some FVal.nan ∧
    logAddExp fvalOps 2 [FVal.ninf] [FVal.fin 1]
      = some ([some (FVal.fin 1)], [FVal.ninf], [FVal.fin 1]) ∧
    logAddExp fvalOps 2 [FVal.ninf] [FVal.ninf]
      = some ([some FVal.nan], [FVal.ninf], [FVal.ninf]) ∧
    logAddExp fvalOps 2 [FVal.pinf] [FVal.fin 1]
      = some ([some FVal.pinf], [FVal.pinf], [FVal.fin 1]) :=
  C9_special_values 8 2 3 (by decide) (by decide) (by decide)
    [FVal.fin 1, FVal.pinf] (by simp)

theorem C10_witness :
    (∃ out, logAddExp realOps 4 [(1 : ℝ), 2] [(3 : ℝ), 4] = some (out, [1, 2], [3, 4])) ∧
      ∃ out, logAddExp realOps 4 [(1 : ℝ), 2] [(3 : ℝ)] = some (out, [1, 2], [3]) :=
  ⟨C10_inputs_unmodified 4 (by decide) [(1 : ℝ), 2] [(3 : ℝ), 4],
   C10_inputs_unmodified 4 (by decide) [(1 : ℝ), 2] [(3 : ℝ)]⟩

end LSE
